import Mathlib

/-!
# File-Compressor: a shallow embedding of `filecompresssor.cpp`

The development follows the C++ source function by function.

* Bytes (`char`) are natural numbers below 256; a `std::string` and the content of a
  file are lists of bytes (`Str`).  The characters the program writes itself are
  `'0'` = 48, `'1'` = 49, `' '` = 32 and `'\n'` = 10.
* `unsigned` is 32 bits wide: every arithmetic operation on a frequency is taken
  modulo `2 ^ 32`.  `size_t` is 64 bits wide.
* A `HuffmanNode*` is either `nullptr` or points to a node, hence the inductive type
  `HuffmanNode` with the constructor `null`.
* `std::unordered_map` is an association list with distinct keys.  Its iteration order
  is implementation-defined, so the two places where the program iterates over a map
  take the order from the environment (`Env.freqOrder`, `Env.codeOrder`).
* `std::priority_queue<HuffmanNode*, std::vector<HuffmanNode*>, std::greater<HuffmanNode*>>`
  orders the *pointers*, so the queue is keyed by the address of each node; the
  address returned by the `k`-th `new HuffmanNode` is `Env.alloc k`.
* Undefined behaviour and C++ exceptions are explicit results of type `Failure`.
-/

namespace FileCompressor

/-- A `std::string`, or the bytes of a file. -/
abbrev Str := List Nat

/-- The ways in which a run of the program leaves the defined, normal path. -/
inductive Failure where
  /-- `minHeap.top()` is called on an empty priority queue (undefined behaviour). -/
  | emptyHeapTop : Failure
  /-- `std::bitset<8>(str)` throws `std::invalid_argument` (a character other than 0/1). -/
  | invalidArgument : Failure
  /-- The header loop uses `char c` after `inputFile.get(c)` failed to assign it. -/
  | indeterminateChar : Failure
  /-- The header loop uses `size_t codeCount` after `inputFile >> codeCount` failed to
  assign it (the sentry failed, so nothing was stored in the uninitialised variable). -/
  | indeterminateCount : Failure
deriving DecidableEq, Repr

/-- A value of type `HuffmanNode*`: `nullptr`, or a pointer to a node with the fields
`character`, `frequency`, `left`, `right` (source lines 11-18). -/
inductive HuffmanNode where
  | null : HuffmanNode
  | node (character : Nat) (frequency : Nat) (left right : HuffmanNode) : HuffmanNode
deriving DecidableEq, Repr

/-- The field `frequency` of the node pointed to (queue entries are never null). -/
def HuffmanNode.frequency : HuffmanNode → Nat
  | .null => 0
  | .node _ f _ _ => f

/-- The field `character` of the node pointed to. -/
def HuffmanNode.character : HuffmanNode → Nat
  | .null => 0
  | .node c _ _ _ => c

/-- The comparison `HuffmanNode::operator>` (source lines 19-21): by frequency. -/
def HuffmanNode.gt (a b : HuffmanNode) : Bool :=
  decide (a.frequency > b.frequency)

/-! ## `std::unordered_map` -/

/-- The lookup `m.find(k)`. -/
def mapFind {κ ν : Type} [DecidableEq κ] : List (κ × ν) → κ → Option ν
  | [], _ => none
  | (k', v') :: rest, k => if k' = k then some v' else mapFind rest k

/-- The assignment `m[k] = v`: overwrite the entry of `k`, or add a new entry. -/
def mapSet {κ ν : Type} [DecidableEq κ] : List (κ × ν) → κ → ν → List (κ × ν)
  | [], k, v => [(k, v)]
  | (k', v') :: rest, k, v =>
    if k' = k then (k', v) :: rest else (k', v') :: mapSet rest k v

/-- The two member maps of `FileCompressor` (source lines 26-27). -/
structure Tables where
  huffmanCodes : List (Nat × Str)
  reverseHuffmanCodes : List (Str × Nat)
deriving DecidableEq, Repr

/-- The environment of a run: the allocator's addresses and the iteration orders of
the two unordered maps the program iterates over. -/
structure Env where
  alloc : Nat → Nat
  freqOrder : List (Nat × Nat) → List (Nat × Nat)
  codeOrder : List (Nat × Str) → List (Nat × Str)
  freqOrder_perm : ∀ m, (freqOrder m).Perm m
  codeOrder_perm : ∀ m, (codeOrder m).Perm m

/-! ## `buildHuffmanCodes` (source lines 29-37) -/

/-- The recursive traversal `buildHuffmanCodes(root, code)`, acting on the two maps. -/
def buildHuffmanCodes : HuffmanNode → Str → Tables → Tables
  | .null, _, t => t
  | .node character _ left right, code, t =>
    let t1 : Tables :=
      if character ≠ 0 then
        { huffmanCodes := mapSet t.huffmanCodes character code
          reverseHuffmanCodes := mapSet t.reverseHuffmanCodes code character }
      else t
    let t2 := buildHuffmanCodes left (code ++ [48]) t1
    buildHuffmanCodes right (code ++ [49]) t2

/-! ## `buildHuffmanTree` (source lines 39-58) -/

/-- An entry of `minHeap`: a pointer, that is an address and the node it points to. -/
structure NodePtr where
  addr : Nat
  node : HuffmanNode
deriving DecidableEq, Repr

/-- The call `minHeap.top()` under `std::greater<HuffmanNode*>`: the entry with the
least address (`none` on an empty queue). -/
def heapTop : List NodePtr → Option NodePtr
  | [] => none
  | p :: ps =>
    match heapTop ps with
    | none => some p
    | some q => if q.addr < p.addr then some q else some p

/-- The call `minHeap.pop()`: remove the entry that `top()` returns. -/
def heapPop : List NodePtr → List NodePtr
  | [] => []
  | p :: ps =>
    match heapTop ps with
    | none => []
    | some q => if q.addr < p.addr then p :: heapPop ps else ps

/-- The first loop (lines 42-44): one new leaf per map entry, in iteration order;
`k` counts the allocations made so far. -/
def pushLeaves (alloc : Nat → Nat) : Nat → List (Nat × Nat) → List NodePtr → List NodePtr
  | _, [], heap => heap
  | k, (c, f) :: rest, heap =>
    pushLeaves alloc (k + 1) rest (heap ++ [⟨alloc k, .node c f .null .null⟩])

/-- The combine loop (lines 46-55); every iteration removes two entries and adds one,
so a fuel equal to the size of the queue is never exhausted. -/
def combineLoop (alloc : Nat → Nat) : Nat → Nat → List NodePtr → List NodePtr
  | 0, _, heap => heap
  | fuel + 1, k, heap =>
    if heap.length > 1 then
      match heapTop heap with
      | none => heap
      | some left =>
        let heap1 := heapPop heap
        match heapTop heap1 with
        | none => heap
        | some right =>
          let heap2 := heapPop heap1
          let parent : HuffmanNode :=
            .node 0 ((left.node.frequency + right.node.frequency) % 2 ^ 32)
              left.node right.node
          combineLoop alloc fuel (k + 1) (heap2 ++ [⟨alloc k, parent⟩])
    else heap

/-- The function `buildHuffmanTree(charFreq)`; `charFreq` lists the map's entries in
iteration order. -/
def buildHuffmanTree (alloc : Nat → Nat) (charFreq : List (Nat × Nat)) :
    Except Failure HuffmanNode :=
  let heap0 := pushLeaves alloc 0 charFreq []
  let heap := combineLoop alloc heap0.length charFreq.length heap0
  match heapTop heap with
  | none => .error .emptyHeapTop
  | some p => .ok p.node

/-! ## `countCharFrequencies` (source lines 60-68) -/

/-- The function `countCharFrequencies`, on the bytes of the file: `charFreq[c]++` for
every byte, on `unsigned` counters. -/
def countCharFrequencies (input : Str) : List (Nat × Nat) :=
  input.foldl (fun m c => mapSet m c (((mapFind m c).getD 0 + 1) % 2 ^ 32)) []

/-! ## `compress` (source lines 71-104) -/

/-- The decimal digits of `n`, most significant first, as `operator<<` prints a
`size_t`. -/
def decimalAux : Nat → Nat → Str → Str
  | 0, _, acc => acc
  | fuel + 1, n, acc =>
    if n < 10 then (48 + n) :: acc
    else decimalAux fuel (n / 10) ((48 + n % 10) :: acc)

/-- The text written by `outputFile << n` for a `size_t`. -/
def decimal (n : Nat) : Str := decimalAux (n + 1) n []

/-- One iteration of the loop of lines 83-85: the raw byte, a space, the code string
and a newline. -/
def headerEntry (p : Nat × Str) : Str := [p.1, 32] ++ p.2 ++ [10]

/-- The header (lines 82-85): the number of codes and a newline, then per entry the
raw byte, a space, the code string and a newline. -/
def writeHeader (codes : List (Nat × Str)) : Str :=
  decimal codes.length ++ [10] ++ (codes.map headerEntry).flatten

/-- The value `std::bitset<8>(s).to_ulong()`: the constructor throws when a character
of `s` is neither 0 nor 1, and reads the first eight characters, most significant bit
first. -/
def bitset8 (s : Str) : Except Failure Nat :=
  if s.all (fun ch => ch = 48 ∨ ch = 49) then
    .ok ((s.take 8).foldl (fun acc ch => 2 * acc + (if ch = 49 then 1 else 0)) 0)
  else .error .invalidArgument

/-- The inner loop (lines 92-96): while the buffer holds eight characters or more,
write one byte and drop them.  Returns the buffer left and the bytes written. -/
def drainBuffer : Nat → Str → Str → Except Failure (Str × Str)
  | 0, buffer, out => .ok (buffer, out)
  | fuel + 1, buffer, out =>
    if buffer.length ≥ 8 then
      match bitset8 (buffer.take 8) with
      | .error e => .error e
      | .ok byte => drainBuffer fuel (buffer.drop 8) (out ++ [byte % 256])
    else .ok (buffer, out)

/-- The value of `huffmanCodes[c]`: the code of `c`, and the empty string (which
`operator[]` inserts) for a byte that has no entry. -/
def codeOf (codes : List (Nat × Str)) (c : Nat) : Str :=
  (mapFind codes c).getD []

/-- The outer loop (lines 90-97) over the bytes of the input. -/
def packLoop (codes : List (Nat × Str)) : Str → Str → Str → Except Failure (Str × Str)
  | [], buffer, out => .ok (buffer, out)
  | c :: rest, buffer, out =>
    let buffer1 := buffer ++ codeOf codes c
    match drainBuffer buffer1.length buffer1 out with
    | .error e => .error e
    | .ok (buffer2, out2) => packLoop codes rest buffer2 out2

/-- The final step (lines 100-104): a non-empty buffer is filled up with the
character 0 and written as one more byte. -/
def flushBuffer (buffer out : Str) : Except Failure Str :=
  if buffer ≠ [] then
    match bitset8 (buffer ++ List.replicate (8 - buffer.length) 48) with
    | .error e => .error e
    | .ok byte => .ok (out ++ [byte % 256])
  else .ok out

/-- The payload bytes written by lines 88-104 for the given code table and input. -/
def writePayload (codes : List (Nat × Str)) (input : Str) : Except Failure Str :=
  match packLoop codes input [] [] with
  | .error e => .error e
  | .ok (buffer, out) => flushBuffer buffer out

/-- The code table that `compress` builds (lines 74-76) on a fresh `FileCompressor`. -/
def buildTables (env : Env) (input : Str) : Except Failure Tables :=
  match buildHuffmanTree env.alloc (env.freqOrder (countCharFrequencies input)) with
  | .error e => .error e
  | .ok root => .ok (buildHuffmanCodes root [] ⟨[], []⟩)

/-- The function `compress`: the bytes of the output file for the bytes of the input
file. -/
def compress (env : Env) (input : Str) : Except Failure Str :=
  match buildTables env input with
  | .error e => .error e
  | .ok t =>
    match writePayload t.huffmanCodes input with
    | .error e => .error e
    | .ok payload => .ok (writeHeader (env.codeOrder t.huffmanCodes) ++ payload)

/-! ## `decompress` (source lines 124-156) -/

/-- The state of `std::ifstream inputFile`: the unread bytes and the two state bits
that the program can set. -/
structure IStream where
  data : Str
  eof : Bool
  fail : Bool
deriving DecidableEq, Repr

/-- The test `good()`: no state bit is set. -/
def IStream.good (s : IStream) : Bool := !s.eof && !s.fail

/-- The test `std::isspace` of the classic locale. -/
def isSpace (c : Nat) : Bool := c = 32 || (9 ≤ c && c ≤ 13)

/-- A digit character. -/
def isDigit (c : Nat) : Bool := 48 ≤ c && c ≤ 57

/-- The sentry of a formatted input function (`operator>>`): fails on a stream that
is not good, skips white space, and fails when the end of the file is reached. -/
def sentrySkipWs (s : IStream) : IStream × Bool :=
  if s.good then
    let rest := s.data.dropWhile isSpace
    if rest = [] then ({ data := [], eof := true, fail := true }, false)
    else ({ s with data := rest }, true)
  else ({ s with fail := true }, false)

/-- The call `inputFile.get(c)`: the byte read, if any. -/
def streamGet (s : IStream) : IStream × Option Nat :=
  if s.good then
    match s.data with
    | [] => ({ data := [], eof := true, fail := true }, none)
    | c :: rest => ({ s with data := rest }, some c)
  else ({ s with fail := true }, none)

/-- The call `inputFile.ignore()`: skip one byte. -/
def streamIgnore (s : IStream) : IStream :=
  if s.good then
    match s.data with
    | [] => { s with eof := true }
    | _ :: rest => { s with data := rest }
  else { s with fail := true }

/-- The digits at the front of a string, read as a decimal number: the value, the
number of digits read and the rest of the string. -/
def readDigits : Str → Nat → Nat → Nat × Nat × Str
  | [], acc, n => (acc, n, [])
  | c :: rest, acc, n =>
    if isDigit c then readDigits rest (10 * acc + (c - 48)) (n + 1)
    else (acc, n, c :: rest)

/-- The extraction `inputFile >> codeCount` for a `size_t`: an optional sign, then
decimal digits.  When the sentry fails (the file is empty or holds only white space)
nothing is stored and `codeCount` stays uninitialised.  Otherwise a value is stored:
without a digit the value is 0 and the stream fails; a value that does not fit 64
bits gives the largest value and the stream fails; a minus sign negates modulo
`2 ^ 64`. -/
def streamReadSize (s : IStream) : Except Failure (IStream × Nat) :=
  match sentrySkipWs s with
  | (_, false) => .error .indeterminateCount
  | (s1, true) =>
    let negative := s1.data.head? = some 45
    let signed := negative || s1.data.head? = some 43
    let body := if signed then s1.data.drop 1 else s1.data
    match readDigits body 0 0 with
    | (value, count, rest) =>
      let atEnd := decide (rest = [])
      if count = 0 then .ok ({ data := rest, eof := atEnd, fail := true }, 0)
      else if value ≥ 2 ^ 64 then
        .ok ({ data := rest, eof := atEnd, fail := true }, 2 ^ 64 - 1)
      else
        .ok ({ data := rest, eof := atEnd, fail := false },
          if negative then (2 ^ 64 - value) % 2 ^ 64 else value)

/-- The extraction `inputFile >> code` for a `std::string`: skip white space, then
take the bytes up to the next white space or the end of the file.  When the sentry
fails the string keeps its value, which is empty for the fresh `code`. -/
def streamReadWord (s : IStream) : IStream × Str :=
  match sentrySkipWs s with
  | (s1, false) => (s1, [])
  | (s1, true) =>
    let word := s1.data.takeWhile (fun c => !isSpace c)
    let rest := s1.data.dropWhile (fun c => !isSpace c)
    ({ data := rest, eof := decide (rest = []), fail := false }, word)

/-- The header loop (lines 135-142), `n` iterations. -/
def readCodes : Nat → IStream → List (Str × Nat) → Except Failure (IStream × List (Str × Nat))
  | 0, s, rev => .ok (s, rev)
  | n + 1, s, rev =>
    match streamGet s with
    | (_, none) => .error .indeterminateChar
    | (s1, some c) =>
      match streamReadWord s1 with
      | (s2, code) => readCodes n (streamIgnore s2) (mapSet rev code c)

/-- The header part of `decompress` (lines 131-142) on a fresh `FileCompressor`: the
stream after the header and the reverse code table. -/
def readHeader (file : Str) : Except Failure (IStream × List (Str × Nat)) :=
  match streamReadSize { data := file, eof := false, fail := false } with
  | .error e => .error e
  | .ok (s1, codeCount) => readCodes codeCount (streamIgnore s1) []

/-- The bits of a byte, from bit 7 down to bit 0, as the characters 1 and 0. -/
def byteBits (byte : Nat) : Str :=
  [7, 6, 5, 4, 3, 2, 1, 0].map (fun i => if (byte / 2 ^ i) % 2 = 1 then 49 else 48)

/-- One step of the inner loop (lines 150-154): the state is `currentCode` and the
output written so far. -/
def decodeBit (rev : List (Str × Nat)) (st : Str × Str) (bit : Nat) : Str × Str :=
  let currentCode := st.1 ++ [bit]
  match mapFind rev currentCode with
  | some c => ([], st.2 ++ [c])
  | none => (currentCode, st.2)

/-- The decode loop (lines 145-156) over the payload bytes that `get` delivers. -/
def decodeLoop (rev : List (Str × Nat)) (payload : Str) : Str × Str :=
  payload.foldl (fun st byte => (byteBits byte).foldl (decodeBit rev) st) ([], [])

/-- The bytes that `while (inputFile.get(byte))` delivers: all unread bytes of a good
stream, none otherwise. -/
def payloadOf (s : IStream) : Str :=
  if s.good then s.data else []

/-- The function `decompress`: the bytes of the output file for the bytes of the
input file. -/
def decompress (file : Str) : Except Failure Str :=
  match readHeader file with
  | .error e => .error e
  | .ok (s, rev) => .ok (decodeLoop rev (payloadOf s)).2

/-- The run of `compress` followed by `decompress` on its output. -/
def roundTrip (env : Env) (input : Str) : Except Failure Str :=
  match compress env input with
  | .error e => .error e
  | .ok file => decompress file

/-- The environment in which the `k`-th allocation has address `k` and both maps are
iterated in insertion order. -/
def plainEnv : Env where
  alloc := fun k => k
  freqOrder := fun m => m
  codeOrder := fun m => m
  freqOrder_perm := fun m => List.Perm.refl m
  codeOrder_perm := fun m => List.Perm.refl m

/-! ## Notions used to state the properties -/

/-- The entries `(character, frequency)` of the nodes without children, left to right. -/
def leafList : HuffmanNode → List (Nat × Nat)
  | .null => []
  | .node c f l r => if l = .null ∧ r = .null then [(c, f)] else leafList l ++ leafList r

/-- A tree as the combine loop builds it: a node without children, or a node with
character 0 and two such trees as children. -/
inductive Proper : HuffmanNode → Prop where
  | leaf (c f : Nat) : Proper (.node c f .null .null)
  | inner (f : Nat) (l r : HuffmanNode) : Proper l → Proper r → Proper (.node 0 f l r)

/-- The pairs `(character, code)` that the traversal `buildHuffmanCodes(root, code)`
records, in the order of the traversal. -/
def codeList : HuffmanNode → Str → List (Nat × Str)
  | .null, _ => []
  | .node c _ l r, code =>
    (if c ≠ 0 then [(c, code)] else []) ++ codeList l (code ++ [48]) ++ codeList r (code ++ [49])

/-- The assignments of `buildHuffmanCodes` for one recorded pair. -/
def recordCode (t : Tables) (p : Nat × Str) : Tables :=
  { huffmanCodes := mapSet t.huffmanCodes p.1 p.2
    reverseHuffmanCodes := mapSet t.reverseHuffmanCodes p.2 p.1 }

/-- A string of the characters 0 and 1. -/
def IsBits (s : Str) : Prop := ∀ ch ∈ s, ch = 48 ∨ ch = 49

instance (s : Str) : Decidable (IsBits s) := by
  unfold IsBits
  infer_instance

/-- The invariant of the queue: every entry is a proper tree, and the leaves of all
entries are the entries of the frequency map. -/
def Forest (charFreq : List (Nat × Nat)) (heap : List NodePtr) : Prop :=
  (∀ p ∈ heap, Proper p.node) ∧ (heap.flatMap (fun p => leafList p.node)).Perm charFreq

/-! ## The reference definition of packing -/

/-- The value of a string of the characters 0 and 1 read as a binary number, most
significant bit first. -/
def bitValue (s : Str) : Nat :=
  s.foldl (fun acc ch => 2 * acc + (if ch = 49 then 1 else 0)) 0

/-- The logical bit sequence: the codes of the input bytes, concatenated in input
order. -/
def codeBits (codes : List (Nat × Str)) (input : Str) : Str :=
  input.flatMap (codeOf codes)

/-- The number of zero bits that fill a bit sequence up to a multiple of 8. -/
def padding (bits : Str) : Nat := (8 - bits.length % 8) % 8

/-- A bit sequence, right-padded with zero bits to a multiple of 8. -/
def padBits (bits : Str) : Str := bits ++ List.replicate (padding bits) 48

/-- A bit sequence cut into groups of 8, each group read most significant bit
first. -/
def cutBytes : Nat → Str → Str
  | 0, _ => []
  | fuel + 1, bits =>
    if bits = [] then [] else bitValue (bits.take 8) :: cutBytes fuel (bits.drop 8)

/-- The bytes of a bit sequence: pad, then cut. -/
def bytesOfBits (bits : Str) : Str :=
  cutBytes (padBits bits).length (padBits bits)

/-- The reference definition of the payload: the bytes of the logical bit sequence. -/
def packReference (codes : List (Nat × Str)) (input : Str) : Str :=
  bytesOfBits (codeBits codes input)

/-- The reverse table after the assignments `reverseHuffmanCodes[code] = c` for the
entries of a code table, in the order of the entries. -/
def reverseOf (codes : List (Nat × Str)) : List (Str × Nat) :=
  codes.foldl (fun rev p => mapSet rev p.2 p.1) []

/-- A stream in good state with the given unread bytes. -/
def goodStream (data : Str) : IStream := { data := data, eof := false, fail := false }

/-- The `k` low bits of `n`, most significant first, as the characters 1 and 0. -/
def bitsOfNat : Nat → Nat → Str
  | 0, _ => []
  | k + 1, n => bitsOfNat k (n / 2) ++ [if n % 2 = 1 then 49 else 48]

/-- The code table with which `compress` encodes the input (empty when no table is
built). -/
def tableOf (env : Env) (input : Str) : List (Nat × Str) :=
  match buildTables env input with
  | .ok t => t.huffmanCodes
  | .error _ => []

/-- Every node has no child or two children. -/
def isFull : HuffmanNode → Bool
  | .null => true
  | .node _ _ l r =>
    (decide (l = .null ∧ r = .null) || decide (l ≠ .null ∧ r ≠ .null)) && isFull l && isFull r

/-- Every node that has a child carries the sum, modulo `2 ^ 32`, of the frequencies of
its two children. -/
def sumsUp : HuffmanNode → Bool
  | .null => true
  | .node _ f l r =>
    (decide (l = .null ∧ r = .null) || decide (f = (l.frequency + r.frequency) % 2 ^ 32)) &&
      sumsUp l && sumsUp r

/-- The bytes that the decode loop emits for the zero bits padded into the last
payload byte of the container that `compress` writes for the input. -/
def paddingOutput (env : Env) (input : Str) : Str :=
  ((List.replicate (padding (codeBits (tableOf env input) input)) 48).foldl
    (decodeBit (reverseOf (env.codeOrder (tableOf env input)))) ([], [])).2

/-! # Properties -/

/-! ## The priority queue -/

theorem heapTop_eq_none {h : List NodePtr} : heapTop h = none ↔ h = [] := by
  cases h with
  | nil => simp [heapTop]
  | cons p ps =>
    simp only [heapTop]
    cases heapTop ps with
    | none => simp
    | some q => by_cases hq : q.addr < p.addr <;> simp [hq]

theorem heapTop_pop_perm : ∀ {h : List NodePtr} {p : NodePtr},
    heapTop h = some p → h.Perm (p :: heapPop h) := by
  intro h
  induction h with
  | nil => intro p hp; simp [heapTop] at hp
  | cons a as ih =>
    intro p hp
    simp only [heapTop, heapPop] at hp ⊢
    cases hq : heapTop as with
    | none =>
      rw [hq] at hp
      simp only [Option.some.injEq] at hp
      have : as = [] := heapTop_eq_none.mp hq
      subst this; subst hp
      simp
    | some q =>
      rw [hq] at hp
      simp only
      by_cases hlt : q.addr < a.addr
      · simp only [hlt, if_true, Option.some.injEq] at hp ⊢
        subst hp
        exact ((ih hq).cons a).trans (List.Perm.swap _ _ _)
      · simp only [hlt, if_false, Option.some.injEq] at hp ⊢
        subst hp
        exact List.Perm.refl _

theorem heapPop_length {h : List NodePtr} {p : NodePtr} (hp : heapTop h = some p) :
    (heapPop h).length + 1 = h.length := by
  have := (heapTop_pop_perm hp).length_eq
  simp at this
  omega

/-! ## The forest held by the queue -/

theorem leafList_leaf (c f : Nat) : leafList (.node c f .null .null) = [(c, f)] := by
  simp [leafList]

theorem Proper.ne_null {t : HuffmanNode} (h : Proper t) : t ≠ .null := by
  cases h <;> simp

theorem leafList_inner (c f : Nat) {l r : HuffmanNode} (hl : Proper l) :
    leafList (.node c f l r) = leafList l ++ leafList r := by
  have := hl.ne_null
  simp [leafList, this]

theorem Proper.leafList_ne_nil {t : HuffmanNode} (h : Proper t) : leafList t ≠ [] := by
  induction h with
  | leaf c f => simp [leafList]
  | inner f l r hl hr ihl ihr =>
    rw [leafList_inner 0 f hl]
    simp [ihl]

theorem pushLeaves_eq (alloc : Nat → Nat) : ∀ (charFreq : List (Nat × Nat)) (k : Nat)
    (heap : List NodePtr),
    (pushLeaves alloc k charFreq heap).map NodePtr.node =
      heap.map NodePtr.node ++ charFreq.map (fun p => HuffmanNode.node p.1 p.2 .null .null) := by
  intro charFreq
  induction charFreq with
  | nil => intro k heap; simp [pushLeaves]
  | cons p rest ih =>
    intro k heap
    obtain ⟨c, f⟩ := p
    simp [pushLeaves, ih]

theorem pushLeaves_length (alloc : Nat → Nat) (charFreq : List (Nat × Nat)) (k : Nat)
    (heap : List NodePtr) :
    (pushLeaves alloc k charFreq heap).length = heap.length + charFreq.length := by
  have := congrArg List.length (pushLeaves_eq alloc charFreq k heap)
  simpa using this

theorem flatMap_leafList_eq (heap : List NodePtr) :
    heap.flatMap (fun p => leafList p.node) = (heap.map NodePtr.node).flatMap leafList := by
  simp [List.flatMap_map]

theorem pushLeaves_forest (alloc : Nat → Nat) (charFreq : List (Nat × Nat)) :
    Forest charFreq (pushLeaves alloc 0 charFreq []) := by
  constructor
  · intro p hp
    have hmem : p.node ∈ (pushLeaves alloc 0 charFreq []).map NodePtr.node :=
      List.mem_map_of_mem _ hp
    rw [pushLeaves_eq] at hmem
    simp only [List.map_nil, List.nil_append, List.mem_map] at hmem
    obtain ⟨q, _, hq⟩ := hmem
    rw [← hq]
    exact Proper.leaf _ _
  · rw [flatMap_leafList_eq, pushLeaves_eq]
    simp only [List.map_nil, List.nil_append]
    have : (charFreq.map (fun p => HuffmanNode.node p.1 p.2 .null .null)).flatMap leafList
        = charFreq := by
      induction charFreq with
      | nil => rfl
      | cons a as ih => simp [List.flatMap_cons, leafList_leaf, ih]
    rw [this]

theorem Forest.perm {charFreq : List (Nat × Nat)} {h1 h2 : List NodePtr}
    (hf : Forest charFreq h1) (hp : h1.Perm h2) : Forest charFreq h2 := by
  constructor
  · intro p hmem
    exact hf.1 p (hp.symm.subset hmem)
  · exact (List.Perm.flatMap_right _ hp.symm).trans hf.2

theorem Forest.combine {charFreq : List (Nat × Nat)} {l r : NodePtr} {rest : List NodePtr}
    (hf : Forest charFreq (l :: r :: rest)) (a f : Nat) :
    Forest charFreq (rest ++ [⟨a, .node 0 f l.node r.node⟩]) := by
  have hl : Proper l.node := hf.1 l (by simp)
  have hr : Proper r.node := hf.1 r (by simp)
  constructor
  · intro p hmem
    rcases List.mem_append.mp hmem with h | h
    · exact hf.1 p (by simp [h])
    · simp only [List.mem_singleton] at h
      subst h
      exact Proper.inner f _ _ hl hr
  · have h2 := hf.2
    simp only [List.flatMap_cons, List.flatMap_append, List.flatMap_nil, List.append_nil,
      leafList_inner 0 f hl] at h2 ⊢
    refine List.Perm.trans ?_ h2
    refine List.perm_append_comm.trans ?_
    rw [List.append_assoc]

theorem combineLoop_forest (alloc : Nat → Nat) (charFreq : List (Nat × Nat)) :
    ∀ (fuel k : Nat) (heap : List NodePtr), Forest charFreq heap → heap ≠ [] →
      heap.length ≤ fuel →
      Forest charFreq (combineLoop alloc fuel k heap) ∧
        (combineLoop alloc fuel k heap).length = 1 := by
  intro fuel
  induction fuel with
  | zero =>
    intro k heap _ hne hlen
    exact absurd (List.length_eq_zero.mp (Nat.le_zero.mp hlen)) hne
  | succ fuel ih =>
    intro k heap hf hne hlen
    simp only [combineLoop]
    by_cases h1 : heap.length > 1
    · simp only [h1, if_true]
      cases hl : heapTop heap with
      | none => exact absurd (heapTop_eq_none.mp hl) hne
      | some left =>
        simp only
        have hlenl := heapPop_length hl
        cases hr : heapTop (heapPop heap) with
        | none =>
          have := heapTop_eq_none.mp hr
          rw [this] at hlenl
          simp at hlenl
          omega
        | some right =>
          simp only
          have hlenr := heapPop_length hr
          have hperm : heap.Perm (left :: right :: heapPop (heapPop heap)) :=
            (heapTop_pop_perm hl).trans ((heapTop_pop_perm hr).cons left)
          have hf2 := (hf.perm hperm).combine (alloc k)
            ((left.node.frequency + right.node.frequency) % 2 ^ 32)
          apply ih (k + 1) _ hf2
          · simp
          · simp only [List.length_append, List.length_singleton]
            omega
    · simp only [h1, if_false]
      refine ⟨hf, ?_⟩
      have : heap.length ≠ 0 := fun h => hne (List.length_eq_zero.mp h)
      omega

/-- On a non-empty frequency map `buildHuffmanTree` returns a proper tree whose leaves
are the entries of the map. -/
theorem buildHuffmanTree_ok (alloc : Nat → Nat) {charFreq : List (Nat × Nat)}
    (hne : charFreq ≠ []) :
    ∃ root, buildHuffmanTree alloc charFreq = .ok root ∧ Proper root ∧
      (leafList root).Perm charFreq := by
  have h0 := pushLeaves_forest alloc charFreq
  have hlen0 : (pushLeaves alloc 0 charFreq []).length = charFreq.length := by
    simp [pushLeaves_length]
  have hne0 : pushLeaves alloc 0 charFreq [] ≠ [] := by
    intro h
    rw [h] at hlen0
    exact hne (List.length_eq_zero.mp hlen0.symm)
  obtain ⟨hf, hlen⟩ := combineLoop_forest alloc charFreq _ charFreq.length _ h0 hne0
    (Nat.le_refl _)
  simp only [buildHuffmanTree]
  obtain ⟨p, hp⟩ := List.length_eq_one.mp hlen
  rw [hp] at hf ⊢
  refine ⟨p.node, by simp [heapTop], hf.1 p (by simp), ?_⟩
  simpa using hf.2

/-! ## The maps -/

theorem mapFind_mem {κ ν : Type} [DecidableEq κ] : ∀ {m : List (κ × ν)} {k : κ} {v : ν},
    mapFind m k = some v → (k, v) ∈ m := by
  intro m
  induction m with
  | nil => intro k v h; simp [mapFind] at h
  | cons a as ih =>
    intro k v h
    obtain ⟨k', v'⟩ := a
    simp only [mapFind] at h
    by_cases hk : k' = k
    · simp only [hk, if_true, Option.some.injEq] at h
      simp [hk, h]
    · simp only [hk, if_false] at h
      exact List.mem_cons_of_mem _ (ih h)

theorem mapFind_eq_none {κ ν : Type} [DecidableEq κ] : ∀ {m : List (κ × ν)} {k : κ},
    mapFind m k = none ↔ k ∉ m.map Prod.fst := by
  intro m
  induction m with
  | nil => intro k; simp [mapFind]
  | cons a as ih =>
    intro k
    obtain ⟨k', v'⟩ := a
    simp only [mapFind, List.map_cons, List.mem_cons, not_or]
    by_cases hk : k' = k
    · simp [hk]
    · simp only [hk, if_false, ih]
      constructor
      · intro h; exact ⟨fun h' => hk h'.symm, h⟩
      · intro h; exact h.2

theorem mapFind_of_mem {κ ν : Type} [DecidableEq κ] : ∀ {m : List (κ × ν)} {k : κ} {v : ν},
    (m.map Prod.fst).Nodup → (k, v) ∈ m → mapFind m k = some v := by
  intro m
  induction m with
  | nil => intro k v _ h; simp at h
  | cons a as ih =>
    intro k v hnd h
    obtain ⟨k', v'⟩ := a
    simp only [List.map_cons, List.nodup_cons] at hnd
    simp only [mapFind]
    rcases List.mem_cons.mp h with h | h
    · simp only [Prod.mk.injEq] at h
      simp [h.1, h.2]
    · have hk : k' ≠ k := by
        intro hk
        apply hnd.1
        rw [hk]
        exact List.mem_map_of_mem Prod.fst h
      simp only [hk, if_false]
      exact ih hnd.2 h

theorem mapSet_of_not_mem {κ ν : Type} [DecidableEq κ] : ∀ (m : List (κ × ν)) (k : κ) (v : ν),
    k ∉ m.map Prod.fst → mapSet m k v = m ++ [(k, v)] := by
  intro m
  induction m with
  | nil => intro k v _; rfl
  | cons a as ih =>
    intro k v h
    obtain ⟨k', v'⟩ := a
    simp only [List.map_cons, List.mem_cons, not_or] at h
    have hk : k' ≠ k := fun h' => h.1 h'.symm
    simp [mapSet, hk, ih k v h.2]

/-! ## The traversal `buildHuffmanCodes` -/

theorem buildHuffmanCodes_eq : ∀ (t : HuffmanNode) (code : Str) (tb : Tables),
    buildHuffmanCodes t code tb = (codeList t code).foldl recordCode tb := by
  intro t
  induction t with
  | null => intro code tb; simp [buildHuffmanCodes, codeList]
  | node c f l r ihl ihr =>
    intro code tb
    simp only [buildHuffmanCodes, codeList, List.foldl_append, ihl, ihr]
    by_cases hc : c = 0
    · simp [hc]
    · simp [hc, recordCode]

theorem foldl_recordCode : ∀ (l : List (Nat × Str)) (tb : Tables),
    (tb.huffmanCodes.map Prod.fst ++ l.map Prod.fst).Nodup →
    (tb.reverseHuffmanCodes.map Prod.fst ++ l.map Prod.snd).Nodup →
    l.foldl recordCode tb =
      ⟨tb.huffmanCodes ++ l, tb.reverseHuffmanCodes ++ l.map (fun p => (p.2, p.1))⟩ := by
  intro l
  induction l with
  | nil => intro tb _ _; simp
  | cons p ps ih =>
    intro tb h1 h2
    have hk : p.1 ∉ tb.huffmanCodes.map Prod.fst := by
      intro hmem
      have := (List.nodup_append.mp h1).2.2
      exact this hmem (by simp)
    have hc : p.2 ∉ tb.reverseHuffmanCodes.map Prod.fst := by
      intro hmem
      have := (List.nodup_append.mp h2).2.2
      exact this hmem (by simp)
    simp only [List.foldl_cons, recordCode, mapSet_of_not_mem _ _ _ hk,
      mapSet_of_not_mem _ _ _ hc]
    rw [ih]
    · simp
    · simpa using h1
    · simpa using h2

theorem codeList_extends : ∀ (t : HuffmanNode) (code : Str), ∀ p ∈ codeList t code,
    code <+: p.2 := by
  intro t
  induction t with
  | null => intro code p hp; simp [codeList] at hp
  | node c f l r ihl ihr =>
    intro code p hp
    simp only [codeList, List.mem_append] at hp
    rcases hp with (hp | hp) | hp
    · by_cases hc : c = 0
      · simp [hc] at hp
      · simp only [hc, ne_eq, not_false_eq_true, if_true, List.mem_singleton] at hp
        rw [hp]
    · exact (List.prefix_append code [48]).trans (ihl _ p hp)
    · exact (List.prefix_append code [49]).trans (ihr _ p hp)

theorem codeList_isBits : ∀ (t : HuffmanNode) (code : Str), IsBits code →
    ∀ p ∈ codeList t code, IsBits p.2 := by
  intro t
  induction t with
  | null => intro code _ p hp; simp [codeList] at hp
  | node c f l r ihl ihr =>
    intro code hb p hp
    simp only [codeList, List.mem_append] at hp
    have hext : ∀ b, b = 48 ∨ b = 49 → IsBits (code ++ [b]) := by
      intro b hb' ch hch
      rcases List.mem_append.mp hch with h | h
      · exact hb ch h
      · simp only [List.mem_singleton] at h
        rw [h]; exact hb'
    rcases hp with (hp | hp) | hp
    · by_cases hc : c = 0
      · simp [hc] at hp
      · simp only [hc, ne_eq, not_false_eq_true, if_true, List.mem_singleton] at hp
        rw [hp]; exact hb
    · exact ihl _ (hext 48 (Or.inl rfl)) p hp
    · exact ihr _ (hext 49 (Or.inr rfl)) p hp

theorem prefix_snoc_incomparable {code a b : Str} (ha : code ++ [48] <+: a)
    (hb : code ++ [49] <+: b) : ¬ a <+: b ∧ ¬ b <+: a := by
  obtain ⟨u, hu⟩ := ha
  obtain ⟨v, hv⟩ := hb
  constructor
  · rintro ⟨w, hw⟩
    rw [← hu, ← hv] at hw
    simp at hw
  · rintro ⟨w, hw⟩
    rw [← hu, ← hv] at hw
    simp at hw

theorem codeList_pairwise {t : HuffmanNode} (ht : Proper t) : ∀ code : Str,
    (codeList t code).Pairwise (fun p q => ¬ p.2 <+: q.2 ∧ ¬ q.2 <+: p.2) := by
  induction ht with
  | leaf c f =>
    intro code
    by_cases hc : c = 0 <;> simp [codeList, hc]
  | inner f l r hl hr ihl ihr =>
    intro code
    simp only [codeList, ne_eq, not_true_eq_false, if_false, List.nil_append]
    rw [List.pairwise_append]
    refine ⟨ihl _, ihr _, ?_⟩
    intro p hp q hq
    exact prefix_snoc_incomparable (codeList_extends l _ p hp) (codeList_extends r _ q hq)

theorem codeList_keys {t : HuffmanNode} (ht : Proper t) : ∀ code : Str,
    (codeList t code).map Prod.fst = ((leafList t).map Prod.fst).filter (fun c => c ≠ 0) := by
  induction ht with
  | leaf c f =>
    intro code
    by_cases hc : c = 0 <;> simp [codeList, leafList, hc]
  | inner f l r hl hr ihl ihr =>
    intro code
    rw [leafList_inner 0 f hl]
    simp [codeList, ihl, ihr]

theorem codeList_codes_nodup {t : HuffmanNode} (ht : Proper t) (code : Str) :
    ((codeList t code).map Prod.snd).Nodup := by
  rw [List.Nodup, List.pairwise_map]
  refine (codeList_pairwise ht code).imp ?_
  intro p q h heq
  exact h.1 (heq ▸ List.prefix_refl _)

theorem codeList_keys_nodup {t : HuffmanNode} (ht : Proper t)
    (hnd : ((leafList t).map Prod.fst).Nodup) (code : Str) :
    ((codeList t code).map Prod.fst).Nodup := by
  rw [codeList_keys ht]
  exact hnd.filter _

/-- The two maps after `buildHuffmanCodes(root)` on a fresh object, for a proper tree
with distinct leaf characters. -/
theorem buildHuffmanCodes_proper {t : HuffmanNode} (ht : Proper t)
    (hnd : ((leafList t).map Prod.fst).Nodup) :
    buildHuffmanCodes t [] ⟨[], []⟩ =
      ⟨codeList t [], (codeList t []).map (fun p => (p.2, p.1))⟩ := by
  rw [buildHuffmanCodes_eq, foldl_recordCode]
  · simp
  · simpa using codeList_keys_nodup ht hnd []
  · simpa using codeList_codes_nodup ht []

theorem leafList_keys_nodup {t : HuffmanNode} {charFreq : List (Nat × Nat)}
    (hp : (leafList t).Perm charFreq) (hkeys : (charFreq.map Prod.fst).Nodup) :
    ((leafList t).map Prod.fst).Nodup :=
  (hp.map Prod.fst).nodup_iff.mpr hkeys

theorem pairwise_incomparable_of_mem {l : List (Nat × Str)}
    (hpw : l.Pairwise (fun p q => ¬ p.2 <+: q.2 ∧ ¬ q.2 <+: p.2))
    {p q : Nat × Str} (hp : p ∈ l) (hq : q ∈ l) (hne : p ≠ q) : ¬ p.2 <+: q.2 := by
  have hsymm : ∀ a b : Nat × Str, (¬ a.2 <+: b.2 ∧ ¬ b.2 <+: a.2) →
      (¬ b.2 <+: a.2 ∧ ¬ a.2 <+: b.2) := fun _ _ h => ⟨h.2, h.1⟩
  exact (hpw.forall hsymm hp hq hne).1

theorem prefix_free_of_proper {t : HuffmanNode} (ht : Proper t)
    (hnd : ((leafList t).map Prod.fst).Nodup) {x y : Nat} {cx cy : Str}
    (hx : mapFind (buildHuffmanCodes t [] ⟨[], []⟩).huffmanCodes x = some cx)
    (hy : mapFind (buildHuffmanCodes t [] ⟨[], []⟩).huffmanCodes y = some cy)
    (hxy : x ≠ y) : ¬ cx <+: cy := by
  rw [buildHuffmanCodes_proper ht hnd] at hx hy
  have h := pairwise_incomparable_of_mem (codeList_pairwise ht []) (mapFind_mem hx)
    (mapFind_mem hy) (by simp [hxy])
  exact h

/-! ## C2: the code table is prefix-free -/

/-- C2. For every non-empty frequency map (a list of entries with distinct keys, in
any iteration order) and every assignment of addresses, `buildHuffmanTree` returns a
tree, and in the code table that `buildHuffmanCodes` builds from it the code of one
byte value is never a prefix of the code of a different byte value; in particular
different byte values have different codes. -/
theorem prefix_free_code_table (alloc : Nat → Nat) (charFreq : List (Nat × Nat))
    (hne : charFreq ≠ []) (hkeys : (charFreq.map Prod.fst).Nodup) :
    ∃ root, buildHuffmanTree alloc charFreq = .ok root ∧
      ∀ x y cx cy,
        mapFind (buildHuffmanCodes root [] ⟨[], []⟩).huffmanCodes x = some cx →
        mapFind (buildHuffmanCodes root [] ⟨[], []⟩).huffmanCodes y = some cy →
        x ≠ y → ¬ cx <+: cy ∧ cx ≠ cy := by
  obtain ⟨root, hroot, hproper, hperm⟩ := buildHuffmanTree_ok alloc hne
  refine ⟨root, hroot, ?_⟩
  intro x y cx cy hx hy hxy
  have hnd := leafList_keys_nodup hperm hkeys
  have h := prefix_free_of_proper hproper hnd hx hy hxy
  exact ⟨h, fun heq => h (heq ▸ List.prefix_refl _)⟩

/-- C2 at the frequency map of the input `aaaabbbcc`, addresses in allocation order. -/
theorem prefix_free_code_table_witness :
    ∃ root, buildHuffmanTree (fun k => k) [(97, 4), (98, 3), (99, 2)] = .ok root ∧
      ∀ x y cx cy,
        mapFind (buildHuffmanCodes root [] ⟨[], []⟩).huffmanCodes x = some cx →
        mapFind (buildHuffmanCodes root [] ⟨[], []⟩).huffmanCodes y = some cy →
        x ≠ y → ¬ cx <+: cy ∧ cx ≠ cy :=
  prefix_free_code_table (fun k => k) [(97, 4), (98, 3), (99, 2)] (by decide) (by decide)

/-! ## C3: an input made of one byte value -/

/-- C3 (the code at the failing input).  For a frequency map with the single key `c`,
`buildHuffmanTree` returns the leaf itself and `buildHuffmanCodes` records the empty
string as the code of `c` (and nothing at all when `c` is the NUL byte): the code has
no bit. -/
theorem single_symbol_code_is_empty (alloc : Nat → Nat) (c f : Nat) :
    buildHuffmanTree alloc [(c, f)] = .ok (.node c f .null .null) ∧
      (buildHuffmanCodes (.node c f .null .null) [] ⟨[], []⟩).huffmanCodes =
        (if c ≠ 0 then [(c, [])] else []) := by
  constructor
  · simp [buildHuffmanTree, pushLeaves, combineLoop, heapTop]
  · by_cases hc : c = 0 <;> simp [buildHuffmanCodes, hc, mapSet]

/-! ## C6: the empty frequency map -/

/-- C6 (the code at the failing input).  On the empty frequency map the combine loop
of `buildHuffmanTree` is skipped and `minHeap.top()` is evaluated on an empty queue:
the function has no defined result and raises no `InvalidInput` error; `compress`
calls it on the empty input before any check. -/
theorem empty_input_reaches_top_of_empty_heap (env : Env) :
    buildHuffmanTree env.alloc [] = .error .emptyHeapTop ∧
      compress env [] = .error .emptyHeapTop := by
  have hperm : env.freqOrder [] = [] := List.Perm.eq_nil (env.freqOrder_perm [])
  constructor
  · simp [buildHuffmanTree, pushLeaves, combineLoop, heapTop]
  · simp [compress, buildTables, countCharFrequencies, hperm, buildHuffmanTree, pushLeaves,
      combineLoop, heapTop]

/-! ## C10: `countCharFrequencies` -/

theorem mapFind_mapSet {κ ν : Type} [DecidableEq κ] : ∀ (m : List (κ × ν)) (k k' : κ) (v : ν),
    mapFind (mapSet m k v) k' = if k = k' then some v else mapFind m k' := by
  intro m
  induction m with
  | nil => intro k k' v; simp [mapSet, mapFind]
  | cons a as ih =>
    intro k k' v
    obtain ⟨k0, v0⟩ := a
    simp only [mapSet]
    by_cases h0 : k0 = k
    · subst h0
      by_cases h1 : k0 = k' <;> simp [mapFind, h1]
    · simp only [h0, if_false, mapFind, ih]
      by_cases h1 : k0 = k'
      · subst h1
        have : ¬ k = k0 := fun h => h0 h.symm
        simp [this]
      · simp [h1]

theorem mapSet_keys_nodup {κ ν : Type} [DecidableEq κ] : ∀ (m : List (κ × ν)) (k : κ) (v : ν),
    (m.map Prod.fst).Nodup → ((mapSet m k v).map Prod.fst).Nodup := by
  intro m k v hnd
  by_cases hk : k ∈ m.map Prod.fst
  · have : (mapSet m k v).map Prod.fst = m.map Prod.fst := by
      clear hnd
      induction m with
      | nil => simp at hk
      | cons a as ih =>
        obtain ⟨k0, v0⟩ := a
        by_cases h0 : k0 = k
        · simp [mapSet, h0]
        · have hk2 : k ∈ as.map Prod.fst := by
            simp only [List.map_cons, List.mem_cons] at hk
            rcases hk with hk | hk
            · exact absurd hk.symm h0
            · exact hk
          simp [mapSet, h0, ih hk2]
    rw [this]; exact hnd
  · rw [mapSet_of_not_mem m k v hk]
    simp only [List.map_append, List.map_cons, List.map_nil]
    exact List.Nodup.append hnd (List.nodup_singleton k) (by simpa using hk)

theorem countCharFrequencies_snoc (input : Str) (c : Nat) :
    countCharFrequencies (input ++ [c]) =
      mapSet (countCharFrequencies input) c
        (((mapFind (countCharFrequencies input) c).getD 0 + 1) % 2 ^ 32) := by
  simp [countCharFrequencies, List.foldl_append]

theorem countCharFrequencies_find (input : Str) : ∀ c,
    mapFind (countCharFrequencies input) c =
      if c ∈ input then some (input.count c % 2 ^ 32) else none := by
  induction input using List.reverseRecOn with
  | nil => intro c; simp [countCharFrequencies, mapFind]
  | append_singleton l a ih =>
    intro c
    rw [countCharFrequencies_snoc, mapFind_mapSet]
    by_cases hac : a = c
    · subst hac
      rw [ih a]
      by_cases hmem : a ∈ l
      · simp [hmem, List.count_append, Nat.add_mod]
      · simp [hmem, List.count_append, List.count_eq_zero_of_not_mem hmem]
    · have hca : ¬ c = a := fun h => hac h.symm
      simp [hac, hca, ih c, List.count_append]

theorem countCharFrequencies_nodup (input : Str) :
    ((countCharFrequencies input).map Prod.fst).Nodup := by
  induction input using List.reverseRecOn with
  | nil => simp [countCharFrequencies]
  | append_singleton l a ih =>
    rw [countCharFrequencies_snoc]
    exact mapSet_keys_nodup _ _ _ ih

theorem countCharFrequencies_keys (input : Str) (c : Nat) :
    c ∈ (countCharFrequencies input).map Prod.fst ↔ c ∈ input := by
  have h := countCharFrequencies_find input c
  by_cases hmem : c ∈ input
  · simp only [hmem, if_true] at h
    simp only [hmem, iff_true]
    by_contra hcon
    rw [mapFind_eq_none.mpr hcon] at h
    exact Option.noConfusion h
  · simp only [hmem, if_false] at h
    simp only [hmem, iff_false]
    exact mapFind_eq_none.mp h

theorem countCharFrequencies_values (input : Str) :
    ∀ p ∈ countCharFrequencies input, p.2 = input.count p.1 % 2 ^ 32 := by
  intro p hp
  have h1 := mapFind_of_mem (countCharFrequencies_nodup input) (k := p.1) (v := p.2) hp
  have hmem : p.1 ∈ input :=
    (countCharFrequencies_keys input p.1).mp (List.mem_map_of_mem Prod.fst hp)
  rw [countCharFrequencies_find, if_pos hmem] at h1
  exact (Option.some.inj h1).symm

theorem countCharFrequencies_sum (input : Str) (hlen : input.length < 2 ^ 32) :
    ((countCharFrequencies input).map Prod.snd).sum = input.length := by
  have hval : (countCharFrequencies input).map Prod.snd =
      ((countCharFrequencies input).map Prod.fst).map (fun c => input.count c) := by
    rw [List.map_map]
    apply List.map_congr_left
    intro p hp
    rw [countCharFrequencies_values input p hp]
    have : input.count p.1 ≤ input.length := List.count_le_length _ _
    exact Nat.mod_eq_of_lt (by omega)
  have hperm : ((countCharFrequencies input).map Prod.fst).Perm input.dedup := by
    rw [List.perm_ext_iff_of_nodup (countCharFrequencies_nodup input) (List.nodup_dedup _)]
    intro c
    rw [countCharFrequencies_keys, List.mem_dedup]
  rw [hval, (hperm.map _).sum_eq, List.sum_map_count_dedup_eq_length]

theorem countCharFrequencies_replicate (n c : Nat) (hn : n ≠ 0) :
    mapFind (countCharFrequencies (List.replicate n c)) c = some (n % 2 ^ 32) ∧
      (List.replicate n c).count c = n := by
  have hmem : c ∈ List.replicate n c := List.mem_replicate.mpr ⟨hn, rfl⟩
  constructor
  · rw [countCharFrequencies_find, if_pos hmem, List.count_replicate_self]
  · exact List.count_replicate_self c n

/-- C10 (counterexample).  On an input of `2 ^ 32` equal bytes the `unsigned` counter
has wrapped around: the value stored for the byte is 0, not the number of its
occurrences. -/
theorem count_wraps_at_two_pow_32 :
    mapFind (countCharFrequencies (List.replicate (2 ^ 32) 97)) 97 = some 0 ∧
      (List.replicate (2 ^ 32) 97).count 97 = 2 ^ 32 := by
  have h := countCharFrequencies_replicate (2 ^ 32) 97 (by norm_num)
  rw [Nat.mod_self] at h
  exact h

/-- C10 (amended).  For every input, the keys of the map returned by
`countCharFrequencies` are distinct and are exactly the byte values occurring in the
input, the value of each key is the number of occurrences of that byte modulo
`2 ^ 32`, and the empty input gives the empty map; when the input is shorter than
`2 ^ 32` bytes the values are the exact numbers of occurrences and sum to the length
of the input. -/
theorem countCharFrequencies_counts_mod (input : Str) :
    ((countCharFrequencies input).map Prod.fst).Nodup ∧
      (∀ c, c ∈ (countCharFrequencies input).map Prod.fst ↔ c ∈ input) ∧
      (∀ c, mapFind (countCharFrequencies input) c =
        if c ∈ input then some (input.count c % 2 ^ 32) else none) ∧
      countCharFrequencies [] = [] ∧
      (input.length < 2 ^ 32 →
        (∀ c, mapFind (countCharFrequencies input) c =
          if c ∈ input then some (input.count c) else none) ∧
        ((countCharFrequencies input).map Prod.snd).sum = input.length) := by
  refine ⟨countCharFrequencies_nodup input, countCharFrequencies_keys input,
    countCharFrequencies_find input, rfl, ?_⟩
  intro hlen
  refine ⟨?_, countCharFrequencies_sum input hlen⟩
  intro c
  rw [countCharFrequencies_find]
  have : input.count c ≤ input.length := List.count_le_length _ _
  rw [Nat.mod_eq_of_lt (by omega)]

/-! ## C8: code lengths and frequencies -/

/-- C8 (the code at the failing input).  For the input `aaaabbbcc`, with the map
iterated in the order a, b, c and the nodes allocated at increasing addresses, the
queue (ordered by address) merges the leaves of a and b first: the code of a (4
occurrences) has two bits, the code of c (2 occurrences) has one. -/
theorem frequent_byte_gets_longer_code :
    countCharFrequencies [97, 97, 97, 97, 98, 98, 98, 99, 99] = [(97, 4), (98, 3), (99, 2)] ∧
      buildTables plainEnv [97, 97, 97, 97, 98, 98, 98, 99, 99] =
        .ok ⟨[(99, [48]), (97, [49, 48]), (98, [49, 49])],
          [([48], 99), ([49, 48], 97), ([49, 49], 98)]⟩ ∧
      (codeOf (tableOf plainEnv [97, 97, 97, 97, 98, 98, 98, 99, 99]) 97).length = 2 ∧
      (codeOf (tableOf plainEnv [97, 97, 97, 97, 98, 98, 98, 99, 99]) 99).length = 1 :=
  ⟨by decide, rfl, by decide, by decide⟩

/-! ## C4: the byte values that have a code -/

theorem codeList_key_ne_zero : ∀ (t : HuffmanNode) (code : Str), ∀ p ∈ codeList t code,
    p.1 ≠ 0 := by
  intro t
  induction t with
  | null => intro code p hp; simp [codeList] at hp
  | node c f l r ihl ihr =>
    intro code p hp
    simp only [codeList, List.mem_append] at hp
    rcases hp with (hp | hp) | hp
    · by_cases hc : c = 0
      · simp [hc] at hp
      · simp only [hc, ne_eq, not_false_eq_true, if_true, List.mem_singleton] at hp
        rw [hp]; exact hc
    · exact ihl _ p hp
    · exact ihr _ p hp

theorem foldl_recordCode_find_zero : ∀ (l : List (Nat × Str)) (tb : Tables),
    (∀ p ∈ l, p.1 ≠ 0) →
      mapFind (l.foldl recordCode tb).huffmanCodes 0 = mapFind tb.huffmanCodes 0 := by
  intro l
  induction l with
  | nil => intro tb _; rfl
  | cons p ps ih =>
    intro tb h
    rw [List.foldl_cons, ih _ (fun q hq => h q (List.mem_cons_of_mem _ hq))]
    simp only [recordCode, mapFind_mapSet]
    have := h p (by simp)
    simp [this]

theorem countCharFrequencies_ne_nil {input : Str} (hne : input ≠ []) :
    countCharFrequencies input ≠ [] := by
  obtain ⟨c, hc⟩ := List.exists_mem_of_ne_nil input hne
  have := (countCharFrequencies_keys input c).mpr hc
  intro h
  rw [h] at this
  simp at this

theorem freqOrder_ne_nil (env : Env) {input : Str} (hne : input ≠ []) :
    env.freqOrder (countCharFrequencies input) ≠ [] := by
  intro h
  have := env.freqOrder_perm (countCharFrequencies input)
  rw [h] at this
  exact countCharFrequencies_ne_nil hne this.symm.eq_nil

/-- C4 (the code at the failing inputs).  For every input that starts with the NUL
byte, `compress` builds its tables, and the code table has no entry for the byte
value 0 although that value occurs in the input: the leaf of NUL is taken for an
internal node by the test `root->character != 0` and is not recorded. -/
theorem nul_byte_has_no_code (env : Env) (rest : Str) :
    ∃ t, buildTables env (0 :: rest) = .ok t ∧ mapFind t.huffmanCodes 0 = none ∧
      0 ∈ (0 :: rest) := by
  obtain ⟨root, hroot, -, -⟩ :=
    buildHuffmanTree_ok env.alloc (freqOrder_ne_nil env (List.cons_ne_nil 0 rest))
  refine ⟨buildHuffmanCodes root [] ⟨[], []⟩, ?_, ?_, by simp⟩
  · simp [buildTables, hroot]
  · rw [buildHuffmanCodes_eq, foldl_recordCode_find_zero _ _ (codeList_key_ne_zero root [])]
    rfl

/-! ## The one-symbol input end to end -/

/-- For the one-byte input `a`, in every environment, `compress` writes the container
`1\na \n` (the code of a is the empty string and no payload byte follows) and
`decompress` of that container writes the empty file. -/
theorem round_trip_loses_single_byte (env : Env) :
    compress env [97] = .ok [49, 10, 97, 32, 10] ∧ roundTrip env [97] = .ok [] := by
  have hfreq : env.freqOrder (countCharFrequencies [97]) = [(97, 1)] := by
    have h := env.freqOrder_perm (countCharFrequencies [97])
    have h2 : countCharFrequencies [97] = [(97, 1)] := by decide
    rw [h2] at h ⊢
    exact List.perm_singleton.mp h
  have htab : buildTables env [97] = .ok ⟨[(97, [])], [([], 97)]⟩ := by
    simp only [buildTables, hfreq]
    rfl
  have horder : env.codeOrder [(97, [])] = [(97, [])] :=
    List.perm_singleton.mp (env.codeOrder_perm _)
  have hc : compress env [97] = .ok [49, 10, 97, 32, 10] := by
    simp only [compress, htab, horder]
    rfl
  refine ⟨hc, ?_⟩
  simp only [roundTrip, hc]
  rfl

/-! ## C9: packing -/

theorem IsBits.append {a b : Str} (ha : IsBits a) (hb : IsBits b) : IsBits (a ++ b) := by
  intro ch hch
  rcases List.mem_append.mp hch with h | h
  · exact ha ch h
  · exact hb ch h

theorem IsBits.take {a : Str} (ha : IsBits a) (n : Nat) : IsBits (a.take n) :=
  fun ch hch => ha ch (List.mem_of_mem_take hch)

theorem IsBits.drop {a : Str} (ha : IsBits a) (n : Nat) : IsBits (a.drop n) :=
  fun ch hch => ha ch (List.mem_of_mem_drop hch)

theorem isBits_nil : IsBits [] := fun _ h => by simp at h

theorem isBits_zeros (n : Nat) : IsBits (List.replicate n 48) :=
  fun _ hch => Or.inl (List.eq_of_mem_replicate hch)

theorem bitValue_snoc (s : Str) (ch : Nat) :
    bitValue (s ++ [ch]) = 2 * bitValue s + (if ch = 49 then 1 else 0) := by
  simp [bitValue, List.foldl_append]

theorem bitValue_lt (s : Str) : bitValue s < 2 ^ s.length := by
  induction s using List.reverseRecOn with
  | nil => simp [bitValue]
  | append_singleton l a ih =>
    rw [bitValue_snoc, List.length_append, List.length_singleton, Nat.pow_succ]
    split <;> omega

theorem bitset8_of_isBits {s : Str} (hs : IsBits s) :
    bitset8 s = .ok (bitValue (s.take 8)) := by
  have hall : (s.all fun ch => decide (ch = 48 ∨ ch = 49)) = true := by
    rw [List.all_eq_true]
    intro ch hch
    exact decide_eq_true (hs ch hch)
  simp only [bitset8, hall, if_true, bitValue]

theorem bitValue_mod {s : Str} (hlen : s.length ≤ 8) : bitValue s % 256 = bitValue s := by
  apply Nat.mod_eq_of_lt
  calc bitValue s < 2 ^ s.length := bitValue_lt s
    _ ≤ 2 ^ 8 := Nat.pow_le_pow_right (by decide) hlen

theorem bitValue_take8_mod (s : Str) : bitValue (s.take 8) % 256 = bitValue (s.take 8) :=
  bitValue_mod (by simp [List.length_take])

theorem cutBytes_fuel : ∀ (f1 f2 : Nat) (s : Str), s.length ≤ f1 → s.length ≤ f2 →
    cutBytes f1 s = cutBytes f2 s := by
  intro f1
  induction f1 with
  | zero =>
    intro f2 s h1 _
    have : s = [] := List.length_eq_zero.mp (Nat.le_zero.mp h1)
    subst this
    cases f2 <;> simp [cutBytes]
  | succ n ih =>
    intro f2 s h1 h2
    cases f2 with
    | zero =>
      have : s = [] := List.length_eq_zero.mp (Nat.le_zero.mp h2)
      subst this
      simp [cutBytes]
    | succ m =>
      simp only [cutBytes]
      by_cases hs : s = []
      · simp [hs]
      · simp only [hs, if_false]
        have hpos : 0 < s.length := List.length_pos.mpr hs
        have hd : (s.drop 8).length ≤ s.length - 1 := by
          rw [List.length_drop]; omega
        rw [ih m (s.drop 8) (by omega) (by omega)]

theorem padding_drop8 {s : Str} (h : 8 ≤ s.length) : padding (s.drop 8) = padding s := by
  simp only [padding, List.length_drop]
  omega

theorem bytesOfBits_nil : bytesOfBits [] = [] := by
  simp [bytesOfBits, padBits, padding, cutBytes]

theorem bytesOfBits_step {s : Str} (h : 8 ≤ s.length) :
    bytesOfBits s = bitValue (s.take 8) :: bytesOfBits (s.drop 8) := by
  have hpad : padBits s ≠ [] := by
    intro hnil
    have hl := congrArg List.length hnil
    simp only [padBits, List.length_append, List.length_nil] at hl
    omega
  have hlen : (padBits s).length = ((padBits s).length - 1) + 1 := by
    have : 0 < (padBits s).length := List.length_pos.mpr hpad
    omega
  have htake : (padBits s).take 8 = s.take 8 := by
    simp only [padBits]
    rw [List.take_append_of_le_length h]
  have hdrop : (padBits s).drop 8 = padBits (s.drop 8) := by
    simp only [padBits, padding_drop8 h]
    rw [List.drop_append_of_le_length h]
  unfold bytesOfBits
  rw [hlen]
  simp only [cutBytes, hpad, if_false, htake, hdrop]
  congr 1
  apply cutBytes_fuel
  · rw [← hdrop, List.length_drop]; omega
  · exact Nat.le_refl _

theorem bytesOfBits_short {s : Str} (hne : s ≠ []) (h : s.length < 8) :
    bytesOfBits s = [bitValue (s ++ List.replicate (8 - s.length) 48)] := by
  have hpos : 0 < s.length := List.length_pos.mpr hne
  have hp : padding s = 8 - s.length := by
    simp only [padding]; omega
  have hlen : (s ++ List.replicate (8 - s.length) 48).length = 8 := by
    simp only [List.length_append, List.length_replicate]; omega
  have hne2 : s ++ List.replicate (8 - s.length) 48 ≠ [] := by simp [hne]
  simp only [bytesOfBits, padBits, hp, hlen, cutBytes, hne2, if_false]
  rw [List.take_of_length_le (by omega), List.drop_of_length_le (by omega)]
  simp

theorem drainBuffer_spec : ∀ (fuel : Nat) (buffer out : Str), IsBits buffer →
    buffer.length ≤ fuel →
    ∃ b2 out2, drainBuffer fuel buffer out = .ok (b2, out2) ∧ b2.length < 8 ∧ IsBits b2 ∧
      ∀ x : Str, out2 ++ bytesOfBits (b2 ++ x) = out ++ bytesOfBits (buffer ++ x) := by
  intro fuel
  induction fuel with
  | zero =>
    intro buffer out hb hlen
    have : buffer = [] := List.length_eq_zero.mp (Nat.le_zero.mp hlen)
    subst this
    exact ⟨[], out, rfl, by simp, hb, fun _ => rfl⟩
  | succ n ih =>
    intro buffer out hb hlen
    simp only [drainBuffer]
    by_cases h8 : buffer.length ≥ 8
    · simp only [h8, if_true, bitset8_of_isBits (hb.take 8), List.take_take, Nat.min_self,
        bitValue_take8_mod]
      obtain ⟨b2, out2, hrun, hlt, hbits, hout⟩ :=
        ih (buffer.drop 8) (out ++ [bitValue (buffer.take 8)]) (hb.drop 8)
          (by rw [List.length_drop]; omega)
      refine ⟨b2, out2, hrun, hlt, hbits, ?_⟩
      intro x
      rw [hout x, bytesOfBits_step (s := buffer ++ x) (by simp; omega),
        List.take_append_of_le_length h8, List.drop_append_of_le_length h8]
      simp
    · simp only [h8, if_false]
      exact ⟨buffer, out, rfl, by omega, hb, fun _ => rfl⟩

theorem codeOf_isBits {codes : List (Nat × Str)} (hbits : ∀ p ∈ codes, IsBits p.2) (c : Nat) :
    IsBits (codeOf codes c) := by
  unfold codeOf
  cases h : mapFind codes c with
  | none => exact isBits_nil
  | some code => exact hbits (c, code) (mapFind_mem h)

theorem packLoop_spec {codes : List (Nat × Str)} (hbits : ∀ p ∈ codes, IsBits p.2) :
    ∀ (input buffer out : Str), IsBits buffer →
    ∃ b2 out2, packLoop codes input buffer out = .ok (b2, out2) ∧ IsBits b2 ∧
      (buffer.length < 8 → b2.length < 8) ∧
      out2 ++ bytesOfBits b2 = out ++ bytesOfBits (buffer ++ codeBits codes input) := by
  intro input
  induction input with
  | nil =>
    intro buffer out hb
    exact ⟨buffer, out, rfl, hb, fun h => h, by simp [codeBits]⟩
  | cons c rest ih =>
    intro buffer out hb
    have hb1 : IsBits (buffer ++ codeOf codes c) := hb.append (codeOf_isBits hbits c)
    obtain ⟨b1, out1, hrun1, hlt1, hbits1, hout1⟩ :=
      drainBuffer_spec (buffer ++ codeOf codes c).length (buffer ++ codeOf codes c) out hb1
        (Nat.le_refl _)
    obtain ⟨b2, out2, hrun2, hbits2, hlt2, hout2⟩ := ih b1 out1 hbits1
    refine ⟨b2, out2, ?_, hbits2, fun _ => hlt2 hlt1, ?_⟩
    · simp only [packLoop, hrun1, hrun2]
    · rw [hout2, hout1 (codeBits codes rest)]
      simp [codeBits, List.flatMap_cons]

theorem flushBuffer_spec {buffer : Str} (out : Str) (hb : IsBits buffer)
    (hlt : buffer.length < 8) :
    flushBuffer buffer out = .ok (out ++ bytesOfBits buffer) := by
  by_cases hne : buffer = []
  · simp [flushBuffer, hne, bytesOfBits_nil]
  · have hlen : (buffer ++ List.replicate (8 - buffer.length) 48).length ≤ 8 := by
      simp only [List.length_append, List.length_replicate]; omega
    simp only [flushBuffer, ne_eq, hne, not_false_eq_true, if_true,
      bitset8_of_isBits (hb.append (isBits_zeros _)),
      bytesOfBits_short hne hlt, List.take_of_length_le hlen, bitValue_mod hlen]

theorem writePayload_eq {codes : List (Nat × Str)} (hbits : ∀ p ∈ codes, IsBits p.2)
    (input : Str) : writePayload codes input = .ok (packReference codes input) := by
  obtain ⟨b2, out2, hrun, hb2, hlt, hout⟩ := packLoop_spec hbits input [] [] isBits_nil
  simp only [writePayload, hrun, flushBuffer_spec out2 hb2 (hlt (by simp)), hout]
  simp [packReference]

theorem cutBytes_length : ∀ (fuel : Nat) (s : Str), s.length ≤ fuel →
    (cutBytes fuel s).length = (s.length + 7) / 8 := by
  intro fuel
  induction fuel with
  | zero =>
    intro s h
    have : s = [] := List.length_eq_zero.mp (Nat.le_zero.mp h)
    subst this
    simp [cutBytes]
  | succ n ih =>
    intro s h
    simp only [cutBytes]
    by_cases hs : s = []
    · simp [hs]
    · have hpos : 0 < s.length := List.length_pos.mpr hs
      simp only [hs, if_false, List.length_cons]
      rw [ih (s.drop 8) (by rw [List.length_drop]; omega), List.length_drop]
      omega

theorem bytesOfBits_length (s : Str) : (bytesOfBits s).length = (s.length + 7) / 8 := by
  unfold bytesOfBits
  rw [cutBytes_length _ _ (Nat.le_refl _)]
  simp only [padBits, padding, List.length_append, List.length_replicate]
  omega

theorem codeBits_length (codes : List (Nat × Str)) (input : Str) :
    (codeBits codes input).length = (input.map (fun c => (codeOf codes c).length)).sum := by
  induction input with
  | nil => simp [codeBits]
  | cons c rest ih =>
    simp only [codeBits, List.flatMap_cons, List.length_append, List.map_cons,
      List.sum_cons] at ih ⊢
    rw [ih]

/-- C9. For every input and every code table whose codes are strings of the
characters 0 and 1, the payload written by the buffer loop of `compress` is the
reference payload: the codes of the input bytes concatenated in input order,
right-padded with fewer than 8 zero bits to a multiple of 8 and cut into bytes most
significant bit first.  The number of meaningful bits is the sum of the code lengths
of the input bytes, and the payload has `ceil(sum / 8)` bytes. -/
theorem packing_refines_reference (codes : List (Nat × Str)) (input : Str)
    (hbits : ∀ p ∈ codes, IsBits p.2) :
    writePayload codes input = .ok (packReference codes input) ∧
      packReference codes input =
        cutBytes (padBits (codeBits codes input)).length (padBits (codeBits codes input)) ∧
      padBits (codeBits codes input) =
        (input.flatMap (codeOf codes)) ++ List.replicate (padding (codeBits codes input)) 48 ∧
      padding (codeBits codes input) < 8 ∧
      (padBits (codeBits codes input)).length % 8 = 0 ∧
      (codeBits codes input).length = (input.map (fun c => (codeOf codes c).length)).sum ∧
      (packReference codes input).length =
        ((input.map (fun c => (codeOf codes c).length)).sum + 7) / 8 := by
  refine ⟨writePayload_eq hbits input, rfl, rfl, ?_, ?_, codeBits_length codes input, ?_⟩
  · simp only [padding]; omega
  · simp only [padBits, padding, List.length_append, List.length_replicate]; omega
  · rw [← codeBits_length]
    exact bytesOfBits_length _

/-- C9 at the input `aaaabbbcc` with the codes c = 0, a = 10, b = 11. -/
theorem packing_refines_reference_witness :
    writePayload [(99, [48]), (97, [49, 48]), (98, [49, 49])]
        [97, 97, 97, 97, 98, 98, 98, 99, 99] = .ok [170, 252] ∧
      packReference [(99, [48]), (97, [49, 48]), (98, [49, 49])]
        [97, 97, 97, 97, 98, 98, 98, 99, 99] = [170, 252] :=
  ⟨((packing_refines_reference [(99, [48]), (97, [49, 48]), (98, [49, 49])]
      [97, 97, 97, 97, 98, 98, 98, 99, 99] (by decide)).1).trans (by rfl), by decide⟩

/-! ## The header written and read back -/

theorem decimalAux_acc : ∀ (fuel n : Nat) (acc : Str),
    decimalAux fuel n acc = decimalAux fuel n [] ++ acc := by
  intro fuel
  induction fuel with
  | zero => intro n acc; simp [decimalAux]
  | succ k ih =>
    intro n acc
    simp only [decimalAux]
    by_cases h : n < 10
    · simp [h]
    · simp only [h, if_false]
      rw [ih (n / 10) ((48 + n % 10) :: acc), ih (n / 10) [48 + n % 10]]
      simp

/-- The value of a string of digits that continues the number `a`. -/
theorem decimalAux_spec : ∀ (fuel n : Nat), n < fuel →
    decimalAux fuel n [] ≠ [] ∧ (∀ d ∈ decimalAux fuel n [], isDigit d = true) ∧
      (decimalAux fuel n []).foldl (fun acc d => 10 * acc + (d - 48)) 0 = n := by
  intro fuel
  induction fuel with
  | zero => intro n h; omega
  | succ k ih =>
    intro n hn
    simp only [decimalAux]
    by_cases h : n < 10
    · simp only [h, if_true]
      refine ⟨by simp, ?_, by simp⟩
      intro d hd
      simp only [List.mem_singleton] at hd
      simp only [isDigit, hd, Bool.and_eq_true, decide_eq_true_eq]
      omega
    · simp only [h, if_false]
      rw [decimalAux_acc]
      obtain ⟨_, hdig, hval⟩ := ih (n / 10) (by omega)
      refine ⟨by simp, ?_, ?_⟩
      · intro d hd
        rcases List.mem_append.mp hd with hd | hd
        · exact hdig d hd
        · simp only [List.mem_singleton] at hd
          simp only [isDigit, hd, Bool.and_eq_true, decide_eq_true_eq]
          omega
      · rw [List.foldl_append, hval]
        simp only [List.foldl_cons, List.foldl_nil]
        omega

theorem readDigits_digits : ∀ (ds : Str) (a k : Nat) (tail : Str),
    (∀ d ∈ ds, isDigit d = true) → (∀ c tl, tail = c :: tl → isDigit c = false) →
      readDigits (ds ++ tail) a k =
        (ds.foldl (fun acc d => 10 * acc + (d - 48)) a, k + ds.length, tail) := by
  intro ds
  induction ds with
  | nil =>
    intro a k tail _ htail
    cases tail with
    | nil => simp [readDigits]
    | cons c tl => simp [readDigits, htail c tl rfl]
  | cons d ds ih =>
    intro a k tail hds htail
    have hd : isDigit d = true := hds d (by simp)
    have hstep : readDigits (d :: (ds ++ tail)) a k =
        readDigits (ds ++ tail) (10 * a + (d - 48)) (k + 1) := by
      simp only [readDigits, hd, if_true]
    rw [List.cons_append, hstep,
      ih _ _ tail (fun x hx => hds x (List.mem_cons_of_mem _ hx)) htail]
    simp only [List.foldl_cons, List.length_cons, Prod.mk.injEq, true_and, and_true]
    omega

theorem streamReadSize_decimal (n : Nat) (hn : n < 2 ^ 64) (rest : Str) :
    streamReadSize (goodStream (decimal n ++ 10 :: rest)) =
      .ok (goodStream (10 :: rest), n) := by
  obtain ⟨hne, hdig, hval⟩ := decimalAux_spec (n + 1) n (Nat.lt_succ_self n)
  obtain ⟨d, ds, hds⟩ := List.exists_cons_of_ne_nil hne
  have hd : isDigit d = true := hdig d (by rw [hds]; simp)
  have hdspace : isSpace d = false := by
    simp only [isDigit, Bool.and_eq_true, decide_eq_true_eq] at hd
    simp only [isSpace, Bool.or_eq_false_iff, decide_eq_false_iff_not, Bool.and_eq_false_iff]
    omega
  have hd45 : d ≠ 45 ∧ d ≠ 43 := by
    simp only [isDigit, Bool.and_eq_true, decide_eq_true_eq] at hd
    omega
  have hread := readDigits_digits (decimal n) 0 0 (10 :: rest) hdig
    (by intro c tl h; simp only [List.cons.injEq] at h; rw [← h.1]; rfl)
  unfold decimal at hread ⊢
  rw [hval] at hread
  have hlen : (decimalAux (n + 1) n []).length ≠ 0 := by
    rw [hds]; simp
  simp only [streamReadSize, sentrySkipWs, goodStream, IStream.good, Bool.not_false,
    Bool.and_self, if_true]
  rw [hds] at hread hlen ⊢
  simp only [List.cons_append, List.dropWhile_cons, hdspace, Bool.false_eq_true, if_false,
    List.head?_cons, Option.some.injEq, hd45.1, hd45.2, decide_False, Bool.or_self,
    reduceCtorEq]
  simp only [List.cons_append] at hread
  rw [hread]
  simp only [Nat.zero_add]
  have hn2 : n < 18446744073709551616 := hn
  simp [hlen, hn2]

theorem takeWhile_append_stop {p : Nat → Bool} : ∀ (l : Str) (a : Nat) (t : Str),
    (∀ x ∈ l, p x = true) → p a = false →
      (l ++ a :: t).takeWhile p = l ∧ (l ++ a :: t).dropWhile p = a :: t := by
  intro l
  induction l with
  | nil => intro a t _ ha; simp [List.takeWhile, List.dropWhile, ha]
  | cons x xs ih =>
    intro a t hl ha
    have hx : p x = true := hl x (by simp)
    obtain ⟨h1, h2⟩ := ih a t (fun y hy => hl y (List.mem_cons_of_mem _ hy)) ha
    simp [List.takeWhile, List.dropWhile, hx, h1, h2]

theorem isBits_not_space {s : Str} (hs : IsBits s) : ∀ x ∈ s, (!isSpace x) = true := by
  intro x hx
  rcases hs x hx with h | h <;> subst h <;> rfl

theorem readCodes_entry (p : Nat × Str) (hne : p.2 ≠ []) (hb : IsBits p.2)
    (more : Str) (n : Nat) (rev : List (Str × Nat)) :
    readCodes (n + 1) (goodStream (headerEntry p ++ more)) rev =
      readCodes n (goodStream more) (mapSet rev p.2 p.1) := by
  obtain ⟨c, code⟩ := p
  simp only at hne hb ⊢
  obtain ⟨b, bs, hcode⟩ := List.exists_cons_of_ne_nil hne
  have hbsp : isSpace b = false := by
    have := isBits_not_space hb b (by rw [hcode]; simp)
    simpa using this
  obtain ⟨htake, hdrop⟩ := takeWhile_append_stop (p := fun x => !isSpace x) code 10 more
    (isBits_not_space hb) (by rfl)
  have hskip : List.dropWhile isSpace (32 :: (code ++ 10 :: more)) = code ++ 10 :: more := by
    rw [List.dropWhile_cons]
    have h32 : isSpace 32 = true := by rfl
    simp only [h32, if_true]
    rw [hcode, List.cons_append, List.dropWhile_cons]
    simp [hbsp]
  have hnil : code ++ 10 :: more ≠ [] := by simp
  have hdata : headerEntry (c, code) ++ more = c :: 32 :: (code ++ 10 :: more) := by
    simp [headerEntry]
  rw [hdata]
  simp only [readCodes, streamGet, goodStream, IStream.good, Bool.not_false, Bool.and_self,
    if_true, streamReadWord, sentrySkipWs, hskip, hnil, if_false, htake, hdrop, streamIgnore]
  simp

theorem readCodes_entries : ∀ (codes : List (Nat × Str)) (rev : List (Str × Nat))
    (payload : Str), (∀ p ∈ codes, p.2 ≠ [] ∧ IsBits p.2) →
      readCodes codes.length (goodStream ((codes.map headerEntry).flatten ++ payload)) rev =
        .ok (goodStream payload, codes.foldl (fun r p => mapSet r p.2 p.1) rev) := by
  intro codes
  induction codes with
  | nil => intro rev payload _; simp [readCodes]
  | cons p ps ih =>
    intro rev payload h
    obtain ⟨hne, hb⟩ := h p (by simp)
    rw [List.map_cons, List.flatten_cons, List.length_cons, List.foldl_cons,
      List.append_assoc, readCodes_entry p hne hb,
      ih _ _ (fun q hq => h q (List.mem_cons_of_mem _ hq))]

/-- The header loop of `decompress` on the header written by `compress`, followed by
any payload. -/
theorem readHeader_writeHeader {codes : List (Nat × Str)} (payload : Str)
    (hcodes : ∀ p ∈ codes, p.2 ≠ [] ∧ IsBits p.2) (hlen : codes.length < 2 ^ 64) :
    readHeader (writeHeader codes ++ payload) = .ok (goodStream payload, reverseOf codes) := by
  have h1 := streamReadSize_decimal codes.length hlen
    ((codes.map headerEntry).flatten ++ payload)
  have hdata : writeHeader codes ++ payload =
      decimal codes.length ++ 10 :: ((codes.map headerEntry).flatten ++ payload) := by
    simp [writeHeader]
  have h2 := readCodes_entries codes [] payload hcodes
  have h3 : streamIgnore (goodStream (10 :: ((codes.map headerEntry).flatten ++ payload))) =
      goodStream ((codes.map headerEntry).flatten ++ payload) := rfl
  unfold readHeader
  rw [hdata]
  change (match streamReadSize (goodStream _) with
    | Except.error e => Except.error e
    | Except.ok (s1, codeCount) => readCodes codeCount (streamIgnore s1) []) = _
  rw [h1]
  simp only [h3, h2]
  rfl

theorem reverseOf_aux : ∀ (codes : List (Nat × Str)) (rev : List (Str × Nat)),
    (rev.map Prod.fst ++ codes.map Prod.snd).Nodup →
      codes.foldl (fun r p => mapSet r p.2 p.1) rev = rev ++ codes.map (fun p => (p.2, p.1)) := by
  intro codes
  induction codes with
  | nil => intro rev _; simp
  | cons p ps ih =>
    intro rev h
    have hc : p.2 ∉ rev.map Prod.fst := by
      intro hmem
      exact (List.nodup_append.mp h).2.2 hmem (by simp)
    simp only [List.foldl_cons, mapSet_of_not_mem _ _ _ hc]
    rw [ih]
    · simp
    · simpa using h

theorem reverseOf_nodup {codes : List (Nat × Str)} (h : (codes.map Prod.snd).Nodup) :
    reverseOf codes = codes.map (fun p => (p.2, p.1)) := by
  unfold reverseOf
  rw [reverseOf_aux codes [] (by simpa using h)]
  simp

/-! ## The decode loop -/

theorem byteBits_eq (b : Nat) : byteBits b = bitsOfNat 8 b := by
  simp [byteBits, bitsOfNat, Nat.div_div_eq_div_mul]

theorem bitsOfNat_bitValue (s : Str) (hs : IsBits s) : bitsOfNat s.length (bitValue s) = s := by
  induction s using List.reverseRecOn with
  | nil => rfl
  | append_singleton l a ih =>
    have hl : IsBits l := fun ch hch => hs ch (List.mem_append_left _ hch)
    have ha : a = 48 ∨ a = 49 := hs a (by simp)
    rw [bitValue_snoc, List.length_append, List.length_singleton, bitsOfNat]
    rcases ha with ha | ha
    · subst ha
      have h1 : (2 * bitValue l + (if (48 : Nat) = 49 then 1 else 0)) / 2 = bitValue l := by
        simp
      have h2 : (2 * bitValue l + (if (48 : Nat) = 49 then 1 else 0)) % 2 = 0 := by
        simp
      rw [h1, h2, ih hl]
      simp
    · subst ha
      have h1 : (2 * bitValue l + (if (49 : Nat) = 49 then 1 else 0)) / 2 = bitValue l := by
        simp only [if_true]; omega
      have h2 : (2 * bitValue l + (if (49 : Nat) = 49 then 1 else 0)) % 2 = 1 := by
        simp only [if_true]; omega
      rw [h1, h2, ih hl]
      simp

theorem byteBits_bitValue {s : Str} (hs : IsBits s) (hlen : s.length = 8) :
    byteBits (bitValue s) = s := by
  rw [byteBits_eq, ← hlen, bitsOfNat_bitValue s hs]

theorem cutBytes_bits : ∀ (fuel : Nat) (x : Str), IsBits x → x.length % 8 = 0 →
    x.length ≤ fuel → (cutBytes fuel x).flatMap byteBits = x := by
  intro fuel
  induction fuel with
  | zero =>
    intro x _ _ hlen
    have : x = [] := List.length_eq_zero.mp (Nat.le_zero.mp hlen)
    subst this
    simp [cutBytes]
  | succ n ih =>
    intro x hx hmod hlen
    simp only [cutBytes]
    by_cases hnil : x = []
    · simp [hnil]
    · have hpos : 0 < x.length := List.length_pos.mpr hnil
      have h8 : 8 ≤ x.length := by omega
      simp only [hnil, if_false, List.flatMap_cons]
      rw [byteBits_bitValue (hx.take 8) (by rw [List.length_take]; omega),
        ih (x.drop 8) (hx.drop 8) (by rw [List.length_drop]; omega)
          (by rw [List.length_drop]; omega)]
      exact List.take_append_drop 8 x

theorem padBits_isBits {s : Str} (hs : IsBits s) : IsBits (padBits s) :=
  hs.append (isBits_zeros _)

theorem padBits_length_mod (s : Str) : (padBits s).length % 8 = 0 := by
  simp only [padBits, padding, List.length_append, List.length_replicate]
  omega

theorem bytesOfBits_bits {s : Str} (hs : IsBits s) :
    (bytesOfBits s).flatMap byteBits = padBits s :=
  cutBytes_bits _ _ (padBits_isBits hs) (padBits_length_mod s) (Nat.le_refl _)

theorem decodeLoop_eq (rev : List (Str × Nat)) (payload : Str) :
    decodeLoop rev payload = (payload.flatMap byteBits).foldl (decodeBit rev) ([], []) := by
  unfold decodeLoop
  generalize (([], []) : Str × Str) = st
  induction payload generalizing st with
  | nil => rfl
  | cons b bs ih =>
    rw [List.foldl_cons, ih, List.flatMap_cons, List.foldl_append]

/-- The decode loop never removes output: after any further bits the output written
so far is extended by at most one byte per bit. -/
theorem decode_extends (rev : List (Str × Nat)) : ∀ (bits : Str) (st : Str × Str),
    ∃ extra, (bits.foldl (decodeBit rev) st).2 = st.2 ++ extra ∧
      extra.length ≤ bits.length := by
  intro bits
  induction bits with
  | nil => intro st; exact ⟨[], by simp, by simp⟩
  | cons b bs ih =>
    intro st
    obtain ⟨extra, h1, h2⟩ := ih (decodeBit rev st b)
    rw [List.foldl_cons, h1]
    cases hfind : mapFind rev (st.1 ++ [b]) with
    | none =>
      refine ⟨extra, ?_, ?_⟩
      · simp [decodeBit, hfind]
      · simp only [List.length_cons]; omega
    | some c =>
      refine ⟨c :: extra, ?_, ?_⟩
      · simp [decodeBit, hfind]
      · simp only [List.length_cons]; omega

/-- The decode loop on the bits of one code, for a reverse table that finds exactly
the codes of a prefix-free table. -/
theorem decode_code {rev : List (Str × Nat)} {codes : List (Nat × Str)}
    (hrev : ∀ code c, mapFind rev code = some c ↔ (c, code) ∈ codes)
    (hpf : ∀ p ∈ codes, ∀ q ∈ codes, p.2 <+: q.2 → p = q)
    {c : Nat} {code : Str} (hmem : (c, code) ∈ codes) (out : Str) :
    ∀ (suf pre : Str), pre ++ suf = code → suf ≠ [] →
      suf.foldl (decodeBit rev) (pre, out) = ([], out ++ [c]) := by
  intro suf
  induction suf with
  | nil => intro pre _ h; exact absurd rfl h
  | cons x xs ih =>
    intro pre hcode _
    rw [List.foldl_cons]
    by_cases hxs : xs = []
    · subst hxs
      have hfound : mapFind rev (pre ++ [x]) = some c := by
        rw [hcode]; exact (hrev code c).mpr hmem
      simp [decodeBit, hfound]
    · have hnone : mapFind rev (pre ++ [x]) = none := by
        cases hfind : mapFind rev (pre ++ [x]) with
        | none => rfl
        | some c' =>
          exfalso
          have hmem' : (c', pre ++ [x]) ∈ codes := (hrev _ _).mp hfind
          have hpre : (pre ++ [x]) <+: code := ⟨xs, by rw [← hcode]; simp⟩
          have heq := hpf _ hmem' _ hmem hpre
          have hlen : (pre ++ [x]).length = code.length := by
            rw [(Prod.mk.inj heq).2]
          rw [← hcode] at hlen
          have hpos : 0 < xs.length := List.length_pos.mpr hxs
          simp only [List.length_append, List.length_cons, List.length_nil] at hlen
          omega
      have hstep : decodeBit rev (pre, out) x = (pre ++ [x], out) := by
        simp [decodeBit, hnone]
      rw [hstep]
      exact ih (pre ++ [x]) (by rw [← hcode]; simp) hxs

/-- Greedy decoding inverts the concatenation of codes. -/
theorem decode_codeBits {rev : List (Str × Nat)} {codes : List (Nat × Str)}
    (hrev : ∀ code c, mapFind rev code = some c ↔ (c, code) ∈ codes)
    (hpf : ∀ p ∈ codes, ∀ q ∈ codes, p.2 <+: q.2 → p = q)
    (hne : ∀ p ∈ codes, p.2 ≠ []) :
    ∀ (input out : Str), (∀ b ∈ input, (b, codeOf codes b) ∈ codes) →
      (codeBits codes input).foldl (decodeBit rev) ([], out) = ([], out ++ input) := by
  intro input
  induction input with
  | nil => intro out _; simp [codeBits]
  | cons b bs ih =>
    intro out h
    have hb := h b (by simp)
    have hstep := decode_code hrev hpf hb out (codeOf codes b) [] rfl (hne _ hb)
    have hrest := ih (out ++ [b]) (fun x hx => h x (List.mem_cons_of_mem _ hx))
    simp only [codeBits] at hrest ⊢
    rw [List.flatMap_cons, List.foldl_append, hstep, hrest]
    simp

/-! ## `compress` followed by `decompress` -/

theorem nodup_length_le_bound {l : List Nat} {n : Nat} (hnd : l.Nodup) (hlt : ∀ x ∈ l, x < n) :
    l.length ≤ n := by
  have hsub : l.toFinset ⊆ Finset.range n := by
    intro x hx
    exact Finset.mem_range.mpr (hlt x (List.mem_toFinset.mp hx))
  have hcard := Finset.card_le_card hsub
  rw [List.toFinset_card_of_nodup hnd, Finset.card_range] at hcard
  exact hcard

theorem two_le_length_of_distinct {l : List Nat} {a b : Nat} (ha : a ∈ l) (hb : b ∈ l)
    (hab : a ≠ b) : 2 ≤ l.length := by
  match l, ha, hb with
  | [], ha, _ => simp at ha
  | [x], ha, hb =>
    simp only [List.mem_singleton] at ha hb
    exact absurd (ha.trans hb.symm) hab
  | _ :: _ :: _, _, _ => simp

theorem codeList_code_ne_nil {t : HuffmanNode} (ht : Proper t) (h2 : 2 ≤ (leafList t).length) :
    ∀ p ∈ codeList t [], p.2 ≠ [] := by
  cases ht with
  | leaf c f => simp [leafList] at h2
  | inner f l r hl hr =>
    intro p hp hnil
    simp only [codeList, ne_eq, not_true_eq_false, if_false, List.nil_append,
      List.mem_append] at hp
    rcases hp with hp | hp
    · have := codeList_extends l [48] p hp
      rw [hnil] at this
      simp at this
    · have := codeList_extends r [49] p hp
      rw [hnil] at this
      simp at this

theorem codeBits_isBits {codes : List (Nat × Str)} (hbits : ∀ p ∈ codes, IsBits p.2)
    (input : Str) : IsBits (codeBits codes input) := by
  intro ch hch
  simp only [codeBits, List.mem_flatMap] at hch
  obtain ⟨c, _, hc⟩ := hch
  exact codeOf_isBits hbits c ch hc

/-- What `compress` builds for an input with at least two distinct byte values and no
NUL byte: a table that holds a non-empty code for every byte of the input, pairwise
not a prefix of one another. -/
theorem buildTables_spec (env : Env) (input : Str) (hbytes : ∀ b ∈ input, b < 256)
    (hnul : 0 ∉ input) (hdistinct : ∃ a ∈ input, ∃ b ∈ input, a ≠ b) :
    ∃ t, buildTables env input = .ok t ∧
      (t.huffmanCodes.map Prod.fst).Nodup ∧ (t.huffmanCodes.map Prod.snd).Nodup ∧
      t.huffmanCodes.length ≤ 256 ∧
      (∀ b ∈ input, (b, codeOf t.huffmanCodes b) ∈ t.huffmanCodes) ∧
      (∀ p ∈ t.huffmanCodes, p.2 ≠ [] ∧ IsBits p.2) ∧
      (∀ p ∈ t.huffmanCodes, ∀ q ∈ t.huffmanCodes, p.2 <+: q.2 → p = q) := by
  obtain ⟨a, ha, b, hb, hab⟩ := hdistinct
  have hne : input ≠ [] := List.ne_nil_of_mem ha
  have hperm := env.freqOrder_perm (countCharFrequencies input)
  have hLkeys : ((env.freqOrder (countCharFrequencies input)).map Prod.fst).Nodup :=
    (hperm.map Prod.fst).nodup_iff.mpr (countCharFrequencies_nodup input)
  have hLmem : ∀ c, c ∈ (env.freqOrder (countCharFrequencies input)).map Prod.fst ↔
      c ∈ input := fun c =>
    (hperm.map Prod.fst).mem_iff.trans (countCharFrequencies_keys input c)
  obtain ⟨root, hroot, hproper, hleaf⟩ :=
    buildHuffmanTree_ok env.alloc (freqOrder_ne_nil env hne)
  have hnd := leafList_keys_nodup hleaf hLkeys
  have htab := buildHuffmanCodes_proper hproper hnd
  have hleafmem : ∀ c, c ∈ (leafList root).map Prod.fst ↔ c ∈ input := fun c =>
    (hleaf.map Prod.fst).mem_iff.trans (hLmem c)
  have hkeys := codeList_keys hproper []
  have hkeysnd := codeList_keys_nodup hproper hnd []
  have hkeymem : ∀ c, c ∈ (codeList root []).map Prod.fst ↔ c ∈ input := by
    intro c
    rw [hkeys, List.mem_filter, hleafmem]
    constructor
    · exact fun h => h.1
    · intro h
      refine ⟨h, ?_⟩
      have : c ≠ 0 := fun h0 => hnul (h0 ▸ h)
      simpa using this
  have h2 : 2 ≤ (leafList root).length := by
    have := two_le_length_of_distinct ((hleafmem a).mpr ha) ((hleafmem b).mpr hb) hab
    simpa using this
  refine ⟨buildHuffmanCodes root [] ⟨[], []⟩, ?_, ?_⟩
  · simp [buildTables, hroot]
  rw [htab]
  refine ⟨hkeysnd, codeList_codes_nodup hproper [], ?_, ?_, ?_, ?_⟩
  · have := nodup_length_le_bound hkeysnd
      (fun x hx => hbytes x ((hkeymem x).mp hx))
    simpa using this
  · intro c hc
    obtain ⟨p, hp, hpc⟩ := List.mem_map.mp ((hkeymem c).mpr hc)
    have hp' : (c, p.2) ∈ codeList root [] := by rw [← hpc]; exact hp
    have hfind := mapFind_of_mem hkeysnd hp'
    simp only [codeOf, hfind, Option.getD_some]
    exact hp'
  · intro p hp
    exact ⟨codeList_code_ne_nil hproper h2 p hp, codeList_isBits root [] isBits_nil p hp⟩
  · intro p hp q hq hpre
    by_contra hpq
    exact pairwise_incomparable_of_mem (codeList_pairwise hproper []) hp hq hpq hpre

/-- The lookups in the reverse table read from a header whose entries are a
permutation of a table with distinct codes. -/
theorem reverseOf_find {codes order : List (Nat × Str)} (hperm : order.Perm codes)
    (hnd : (codes.map Prod.snd).Nodup) (code : Str) (c : Nat) :
    mapFind (reverseOf order) code = some c ↔ (c, code) ∈ codes := by
  have hond : (order.map Prod.snd).Nodup := (hperm.map Prod.snd).nodup_iff.mpr hnd
  rw [reverseOf_nodup hond]
  have hkeys : ((order.map (fun p => (p.2, p.1))).map Prod.fst).Nodup := by
    simpa [List.map_map, Function.comp_def] using hond
  constructor
  · intro h
    have := mapFind_mem h
    simp only [List.mem_map, Prod.mk.injEq] at this
    obtain ⟨p, hp, h1, h2⟩ := this
    have hpe : p = (c, code) := Prod.ext h2 h1
    rw [← hpe]
    exact hperm.mem_iff.mp hp
  · intro h
    apply mapFind_of_mem hkeys
    simp only [List.mem_map, Prod.mk.injEq]
    exact ⟨(c, code), hperm.mem_iff.mpr h, rfl, rfl⟩

/-- The run of `compress` and of `decompress` on its output, for an input with at
least two distinct byte values and no NUL byte: the container is the header followed
by the reference payload, and the output is the input followed by what the padding
bits decode to. -/
theorem roundTrip_spec (env : Env) (input : Str) (hbytes : ∀ b ∈ input, b < 256)
    (hnul : 0 ∉ input) (hdistinct : ∃ a ∈ input, ∃ b ∈ input, a ≠ b) :
    ∃ extra,
      compress env input = .ok (writeHeader (env.codeOrder (tableOf env input)) ++
        packReference (tableOf env input) input) ∧
      roundTrip env input = .ok (input ++ extra) ∧
      extra.length ≤ padding (codeBits (tableOf env input) input) := by
  obtain ⟨t, htab, _, hcnd, hlen, hmem, hcodes, hpf⟩ :=
    buildTables_spec env input hbytes hnul hdistinct
  have htable : tableOf env input = t.huffmanCodes := by simp [tableOf, htab]
  rw [htable]
  have hbits : ∀ p ∈ t.huffmanCodes, IsBits p.2 := fun p hp => (hcodes p hp).2
  have hoperm := env.codeOrder_perm t.huffmanCodes
  have hcompress : compress env input = .ok (writeHeader (env.codeOrder t.huffmanCodes) ++
      packReference t.huffmanCodes input) := by
    simp only [compress, htab, writePayload_eq hbits]
  have hread := @readHeader_writeHeader (env.codeOrder t.huffmanCodes)
    (packReference t.huffmanCodes input)
    (fun p hp => hcodes p (hoperm.mem_iff.mp hp))
    (by rw [hoperm.length_eq]; exact lt_of_le_of_lt hlen (by norm_num))
  have hrev := reverseOf_find hoperm hcnd
  have hdecode := decode_codeBits hrev hpf (fun p hp => (hcodes p hp).1) input [] hmem
  obtain ⟨extra, hextra, hextralen⟩ := decode_extends
    (reverseOf (env.codeOrder t.huffmanCodes))
    (List.replicate (padding (codeBits t.huffmanCodes input)) 48) ([], [] ++ input)
  refine ⟨extra, hcompress, ?_, by simpa using hextralen⟩
  simp only [roundTrip, hcompress, decompress, hread]
  have hpay : payloadOf (goodStream (packReference t.huffmanCodes input)) =
      packReference t.huffmanCodes input := rfl
  rw [hpay, decodeLoop_eq, packReference, bytesOfBits_bits (codeBits_isBits hbits input),
    padBits, List.foldl_append, hdecode, hextra]
  simp

/-- The output written before a run of the bit step stays in front of what the run
adds. -/
theorem decode_output_shift (rev : List (Str × Nat)) : ∀ (bits cur out : Str),
    bits.foldl (decodeBit rev) (cur, out) =
      ((bits.foldl (decodeBit rev) (cur, [])).1,
        out ++ (bits.foldl (decodeBit rev) (cur, [])).2) := by
  intro bits
  induction bits with
  | nil => intro cur out; simp
  | cons b bs ih =>
    intro cur out
    simp only [List.foldl_cons]
    cases hfind : mapFind rev (cur ++ [b]) with
    | none =>
      have h1 : ∀ o : Str, decodeBit rev (cur, o) b = (cur ++ [b], o) := by
        intro o; simp [decodeBit, hfind]
      rw [h1 out, h1 [], ih (cur ++ [b]) out]
    | some c =>
      have h1 : ∀ o : Str, decodeBit rev (cur, o) b = ([], o ++ [c]) := by
        intro o; simp [decodeBit, hfind]
      rw [h1 out, h1 [], ih [] (out ++ [c]), ih [] ([] ++ [c])]
      simp

/-- The run of `compress` and of `decompress` on its output, for an input with at
least two distinct byte values and no NUL byte: the output is the input followed by
exactly the bytes decoded from the padding bits. -/
theorem roundTrip_exact (env : Env) (input : Str) (hbytes : ∀ b ∈ input, b < 256)
    (hnul : 0 ∉ input) (hdistinct : ∃ a ∈ input, ∃ b ∈ input, a ≠ b) :
    roundTrip env input = .ok (input ++ paddingOutput env input) := by
  obtain ⟨t, htab, _, hcnd, hlen, hmem, hcodes, hpf⟩ :=
    buildTables_spec env input hbytes hnul hdistinct
  have htable : tableOf env input = t.huffmanCodes := by simp [tableOf, htab]
  unfold paddingOutput
  rw [htable]
  have hbits : ∀ p ∈ t.huffmanCodes, IsBits p.2 := fun p hp => (hcodes p hp).2
  have hoperm := env.codeOrder_perm t.huffmanCodes
  have hcompress : compress env input = .ok (writeHeader (env.codeOrder t.huffmanCodes) ++
      packReference t.huffmanCodes input) := by
    simp only [compress, htab, writePayload_eq hbits]
  have hread := @readHeader_writeHeader (env.codeOrder t.huffmanCodes)
    (packReference t.huffmanCodes input)
    (fun p hp => hcodes p (hoperm.mem_iff.mp hp))
    (by rw [hoperm.length_eq]; exact lt_of_le_of_lt hlen (by norm_num))
  have hrev := reverseOf_find hoperm hcnd
  have hdecode := decode_codeBits hrev hpf (fun p hp => (hcodes p hp).1) input [] hmem
  simp only [roundTrip, hcompress, decompress, hread]
  have hpay : payloadOf (goodStream (packReference t.huffmanCodes input)) =
      packReference t.huffmanCodes input := rfl
  rw [hpay, decodeLoop_eq, packReference, bytesOfBits_bits (codeBits_isBits hbits input),
    padBits, List.foldl_append, hdecode, decode_output_shift]
  simp

/-! ## C1: the round trip -/

/-- C1 (counterexample).  For the input `ab`, with nodes allocated at increasing
addresses, the payload is the single byte 01000000 and `decompress` decodes all eight
bits: the output has eight bytes, the input two. -/
theorem round_trip_adds_padding_symbols :
    roundTrip plainEnv [97, 98] = .ok [97, 98, 97, 97, 97, 97, 97, 97] :=
  rfl

/-- C1 (amended).  For every input with at least two distinct byte values and no NUL
byte, in every environment, `decompress` applied to the container written by
`compress` yields the input followed by the bytes that the zero padding bits of the
last payload byte decode to.  So it yields exactly the input if and only if the
padding bits complete no code, which is the case in particular when the sum of the
code lengths of the input bytes is a multiple of 8. -/
theorem round_trip_exact_iff_padding_silent (env : Env) (input : Str)
    (hbytes : ∀ b ∈ input, b < 256) (hnul : 0 ∉ input)
    (hdistinct : ∃ a ∈ input, ∃ b ∈ input, a ≠ b) :
    roundTrip env input = .ok (input ++ paddingOutput env input) ∧
      (roundTrip env input = .ok input ↔ paddingOutput env input = []) ∧
      ((input.map (fun c => (codeOf (tableOf env input) c).length)).sum % 8 = 0 →
        paddingOutput env input = []) := by
  have hrt := roundTrip_exact env input hbytes hnul hdistinct
  refine ⟨hrt, ?_, ?_⟩
  · rw [hrt]
    constructor
    · intro h
      have h2 := Except.ok.inj h
      exact List.append_right_eq_self.mp h2
    · intro h
      rw [h, List.append_nil]
  · intro hsum
    rw [← codeBits_length] at hsum
    have hpad : padding (codeBits (tableOf env input) input) = 0 := by
      simp only [padding, hsum]
    simp only [paddingOutput, hpad, List.replicate_zero, List.foldl_nil]

/-- C1 (amended) at the input `aabcde`, nodes allocated at increasing addresses: the
codes have 15 bits, the one padding bit completes no code, and the round trip is
exact. -/
theorem round_trip_exact_iff_padding_silent_witness :
    roundTrip plainEnv [97, 97, 98, 99, 100, 101] = .ok [97, 97, 98, 99, 100, 101] :=
  ((round_trip_exact_iff_padding_silent plainEnv [97, 97, 98, 99, 100, 101] (by decide)
    (by decide) ⟨97, by decide, 98, by decide, by decide⟩).2.1).mpr (by decide)

/-! ## C5: where decoding stops -/

/-- C5 (counterexample).  For the input `abc`, with nodes allocated at increasing
addresses, the container is the header `3\nc 0\na 10\nb 11\n` followed by the single
payload byte 10110000, without any count of bits or symbols, and `decompress` emits
six bytes: the three padding bits decode to three more `c`. -/
theorem padding_bits_decode_to_symbols :
    compress plainEnv [97, 98, 99] =
        .ok [51, 10, 99, 32, 48, 10, 97, 32, 49, 48, 10, 98, 32, 49, 49, 10, 176] ∧
      roundTrip plainEnv [97, 98, 99] = .ok [97, 98, 99, 99, 99, 99] :=
  ⟨rfl, rfl⟩

/-- C5 (amended).  For every input with at least two distinct byte values and no NUL
byte, in every environment, the container written by `compress` is the header (the
number of codes and the code table) followed by the zero-padded payload, with no
count of meaningful bits or symbols, and `decompress` decodes every bit of the
payload: it emits at least as many bytes as the input has and at most one more per
padding bit, of which there are fewer than 8. -/
theorem decompress_emits_input_and_padding_symbols (env : Env) (input : Str)
    (hbytes : ∀ b ∈ input, b < 256) (hnul : 0 ∉ input)
    (hdistinct : ∃ a ∈ input, ∃ b ∈ input, a ≠ b) :
    ∃ out,
      compress env input = .ok (writeHeader (env.codeOrder (tableOf env input)) ++
        packReference (tableOf env input) input) ∧
      roundTrip env input = .ok out ∧
      input.length ≤ out.length ∧
      out.length ≤ input.length + padding (codeBits (tableOf env input) input) ∧
      padding (codeBits (tableOf env input) input) < 8 := by
  obtain ⟨extra, hc, hrt, hlen⟩ := roundTrip_spec env input hbytes hnul hdistinct
  refine ⟨input ++ extra, hc, hrt, by simp, by simp only [List.length_append]; omega, ?_⟩
  simp only [padding]
  omega

/-- C5 (amended) at the input `abc`. -/
theorem decompress_emits_input_and_padding_symbols_witness :
    ∃ out,
      compress plainEnv [97, 98, 99] =
        .ok (writeHeader (plainEnv.codeOrder (tableOf plainEnv [97, 98, 99])) ++
          packReference (tableOf plainEnv [97, 98, 99]) [97, 98, 99]) ∧
      roundTrip plainEnv [97, 98, 99] = .ok out ∧
      [97, 98, 99].length ≤ out.length ∧
      out.length ≤ [97, 98, 99].length +
        padding (codeBits (tableOf plainEnv [97, 98, 99]) [97, 98, 99]) ∧
      padding (codeBits (tableOf plainEnv [97, 98, 99]) [97, 98, 99]) < 8 :=
  decompress_emits_input_and_padding_symbols plainEnv [97, 98, 99] (by decide) (by decide)
    ⟨97, by decide, 98, by decide, by decide⟩

/-! ## C11 and C17: the decode loop on arbitrary payloads -/

theorem decodeBit_buffer (rev : List (Str × Nat)) (st : Str × Str) (bit : Nat) :
    (decodeBit rev st bit).1 = [] ∨ mapFind rev (decodeBit rev st bit).1 = none := by
  cases hfind : mapFind rev (st.1 ++ [bit]) with
  | none => right; simp [decodeBit, hfind]
  | some c => left; simp [decodeBit, hfind]

theorem decode_buffer (rev : List (Str × Nat)) : ∀ (bits : Str) (st : Str × Str),
    (st.1 = [] ∨ mapFind rev st.1 = none) →
      (bits.foldl (decodeBit rev) st).1 = [] ∨
        mapFind rev (bits.foldl (decodeBit rev) st).1 = none := by
  intro bits
  induction bits with
  | nil => intro st h; exact h
  | cons b bs ih =>
    intro st _
    rw [List.foldl_cons]
    exact ih _ (decodeBit_buffer rev st b)

theorem decode_values (rev : List (Str × Nat)) : ∀ (bits : Str) (st : Str × Str),
    (∀ c ∈ st.2, ∃ code, (code, c) ∈ rev) →
      ∀ c ∈ (bits.foldl (decodeBit rev) st).2, ∃ code, (code, c) ∈ rev := by
  intro bits
  induction bits with
  | nil => intro st h; exact h
  | cons b bs ih =>
    intro st h
    rw [List.foldl_cons]
    apply ih
    intro c hc
    cases hfind : mapFind rev (st.1 ++ [b]) with
    | none =>
      simp only [decodeBit, hfind] at hc
      exact h c hc
    | some c' =>
      simp only [decodeBit, hfind, List.mem_append, List.mem_singleton] at hc
      rcases hc with hc | hc
      · exact h c hc
      · exact ⟨st.1 ++ [b], hc ▸ mapFind_mem hfind⟩

theorem byteBits_length (b : Nat) : (byteBits b).length = 8 := by
  simp [byteBits]

theorem flatMap_byteBits_length (payload : Str) :
    (payload.flatMap byteBits).length = 8 * payload.length := by
  induction payload with
  | nil => rfl
  | cons b bs ih =>
    rw [List.flatMap_cons, List.length_append, ih, byteBits_length, List.length_cons]
    omega

theorem decodeLoop_length (rev : List (Str × Nat)) (payload : Str) :
    (decodeLoop rev payload).2.length ≤ 8 * payload.length := by
  obtain ⟨extra, h1, h2⟩ := decode_extends rev (payload.flatMap byteBits) ([], [])
  rw [decodeLoop_eq, h1, ← flatMap_byteBits_length]
  simpa using h2

/-- C11 (counterexample).  For the input `aabcde`, with nodes allocated at increasing
addresses, `compress` writes 15 code bits and one padding bit.  On this container the
decode loop reaches the end of the payload with the buffer `0`, which matches no
code, and `decompress` returns normally, with exactly the input as its output. -/
theorem unmatched_tail_is_not_reported :
    compress plainEnv [97, 97, 98, 99, 100, 101] =
        .ok [53, 10, 99, 32, 48, 48, 10, 100, 32, 48, 49, 10, 101, 32, 49, 48, 10,
          97, 32, 49, 49, 48, 10, 98, 32, 49, 49, 49, 10, 219, 140] ∧
      readHeader [53, 10, 99, 32, 48, 48, 10, 100, 32, 48, 49, 10, 101, 32, 49, 48, 10,
          97, 32, 49, 49, 48, 10, 98, 32, 49, 49, 49, 10, 219, 140] =
        .ok ({ data := [219, 140], eof := false, fail := false },
          [([48, 48], 99), ([48, 49], 100), ([49, 48], 101), ([49, 49, 48], 97),
            ([49, 49, 49], 98)]) ∧
      decodeLoop [([48, 48], 99), ([48, 49], 100), ([49, 48], 101), ([49, 49, 48], 97),
          ([49, 49, 49], 98)] [219, 140] = ([48], [97, 97, 98, 99, 100, 101]) ∧
      mapFind [([48, 48], 99), ([48, 49], 100), ([49, 48], 101), ([49, 49, 48], 97),
          ([49, 49, 49], 98)] [48] = none ∧
      decompress [53, 10, 99, 32, 48, 48, 10, 100, 32, 48, 49, 10, 101, 32, 49, 48, 10,
          97, 32, 49, 49, 48, 10, 98, 32, 49, 49, 49, 10, 219, 140] =
        .ok [97, 97, 98, 99, 100, 101] :=
  ⟨rfl, rfl, by decide, by decide, rfl⟩

/-- C11 (amended).  For every file whose header is read without using an unassigned
variable (whatever the code table and the payload), when the decode loop reaches the
end of the payload the candidate-code buffer is empty or matches no code, and in
both cases `decompress` returns normally with the output produced so far: bits left
in the buffer are dropped without an error. -/
theorem unmatched_tail_is_dropped (file : Str) (s : IStream) (rev : List (Str × Nat))
    (h : readHeader file = .ok (s, rev)) :
    decompress file = .ok (decodeLoop rev (payloadOf s)).2 ∧
      ((decodeLoop rev (payloadOf s)).1 = [] ∨
        mapFind rev (decodeLoop rev (payloadOf s)).1 = none) := by
  constructor
  · simp only [decompress, h]
  · rw [decodeLoop_eq]
    exact decode_buffer rev _ _ (Or.inl rfl)

/-- C11 (amended) at the container of `abc` (codes c = 0, a = 10, b = 11) with the
payload byte replaced by 00000001: seven bytes are decoded, the last bit stays in the
buffer. -/
theorem unmatched_tail_is_dropped_witness :
    decompress [51, 10, 99, 32, 48, 10, 97, 32, 49, 48, 10, 98, 32, 49, 49, 10, 1] =
        .ok [99, 99, 99, 99, 99, 99, 99] :=
  ((unmatched_tail_is_dropped [51, 10, 99, 32, 48, 10, 97, 32, 49, 48, 10, 98, 32, 49, 49, 10, 1]
    { data := [1], eof := false, fail := false } [([48], 99), ([49, 48], 97), ([49, 49], 98)]
    rfl).1).trans (by rfl)

/-- C17. For every reverse code table and every payload of `n` bytes, the decode loop
is the fold of the bit step over exactly the `8 * n` bits of those bytes (it has no
failing step and consumes nothing else), it emits at most `8 * n` byte values, and
every value emitted is a value of the reverse table; `decompress` returns this output
normally for every file whose header leaves that table and that payload. -/
theorem decode_loop_is_total (rev : List (Str × Nat)) (payload : Str) :
    decodeLoop rev payload = (payload.flatMap byteBits).foldl (decodeBit rev) ([], []) ∧
      (payload.flatMap byteBits).length = 8 * payload.length ∧
      (decodeLoop rev payload).2.length ≤ 8 * payload.length ∧
      (∀ c ∈ (decodeLoop rev payload).2, ∃ code, (code, c) ∈ rev) ∧
      (∀ file, readHeader file = .ok (goodStream payload, rev) →
        decompress file = .ok (decodeLoop rev payload).2) := by
  refine ⟨decodeLoop_eq rev payload, flatMap_byteBits_length payload,
    decodeLoop_length rev payload, ?_, ?_⟩
  · rw [decodeLoop_eq]
    exact decode_values rev _ _ (by simp)
  · intro file h
    simp only [decompress, h]
    rfl

/-! ## C12: the merge step -/

/-- C12 (the code at the failing input).  For the frequency map of `aaaabbbcc`,
iterated in the order a, b, c with the nodes allocated at increasing addresses, the
queue holds the leaves of a (4), b (3) and c (2); the first iteration of the combine
loop removes the leaves of a and b, the two lowest addresses, although the leaf of c
has the lowest frequency, and makes them the left and the right child of the new
node. -/
theorem merge_step_takes_lowest_addresses :
    pushLeaves (fun k => k) 0 [(97, 4), (98, 3), (99, 2)] [] =
        [⟨0, .node 97 4 .null .null⟩, ⟨1, .node 98 3 .null .null⟩,
          ⟨2, .node 99 2 .null .null⟩] ∧
      combineLoop (fun k => k) 1 3
          [⟨0, .node 97 4 .null .null⟩, ⟨1, .node 98 3 .null .null⟩,
            ⟨2, .node 99 2 .null .null⟩] =
        [⟨2, .node 99 2 .null .null⟩,
          ⟨3, .node 0 7 (.node 97 4 .null .null) (.node 98 3 .null .null)⟩] :=
  ⟨by decide, by decide⟩

/-! ## C13: greedy decoding -/

theorem entry_eq_of_key_eq {codes : List (Nat × Str)} (hkeys : (codes.map Prod.fst).Nodup)
    {p q : Nat × Str} (hp : p ∈ codes) (hq : q ∈ codes) (h : p.1 = q.1) : p = q := by
  have h1 := mapFind_of_mem hkeys (k := p.1) (v := p.2) hp
  have h2 := mapFind_of_mem hkeys (k := q.1) (v := q.2) hq
  rw [h] at h1
  rw [h1] at h2
  exact Prod.ext h (Option.some.inj h2)

theorem codes_nodup_of_prefix_free {codes : List (Nat × Str)}
    (hkeys : (codes.map Prod.fst).Nodup)
    (hpf : ∀ p ∈ codes, ∀ q ∈ codes, p.1 ≠ q.1 → ¬ p.2 <+: q.2) :
    (codes.map Prod.snd).Nodup := by
  induction codes with
  | nil => simp
  | cons a as ih =>
    simp only [List.map_cons, List.nodup_cons] at hkeys ⊢
    refine ⟨?_, ih hkeys.2 (fun p hp q hq => hpf p (List.mem_cons_of_mem _ hp) q
      (List.mem_cons_of_mem _ hq))⟩
    intro hmem
    obtain ⟨q, hq, hqa⟩ := List.mem_map.mp hmem
    have hne : a.1 ≠ q.1 := by
      intro h
      exact hkeys.1 (h ▸ List.mem_map_of_mem Prod.fst hq)
    exact hpf a (by simp) q (List.mem_cons_of_mem _ hq) hne (hqa ▸ List.prefix_refl _)

theorem codeOf_mem {codes : List (Nat × Str)} (hkeys : (codes.map Prod.fst).Nodup)
    {b : Nat} (hb : b ∈ codes.map Prod.fst) : (b, codeOf codes b) ∈ codes := by
  obtain ⟨p, hp, hpb⟩ := List.mem_map.mp hb
  have hp' : (b, p.2) ∈ codes := by rw [← hpb]; exact hp
  have hfind := mapFind_of_mem hkeys hp'
  simp only [codeOf, hfind, Option.getD_some]
  exact hp'

/-- Greedy decoding of the concatenated codes, bit by bit, for a prefix-free table
whose entries were written to the header in any order. -/
theorem decode_concatenation {codes order : List (Nat × Str)} (input : Str)
    (horder : order.Perm codes) (hkeys : (codes.map Prod.fst).Nodup)
    (hpf : ∀ p ∈ codes, ∀ q ∈ codes, p.1 ≠ q.1 → ¬ p.2 <+: q.2)
    (hne : ∀ p ∈ codes, p.2 ≠ [])
    (hin : ∀ b ∈ input, b ∈ codes.map Prod.fst) :
    (codeBits codes input).foldl (decodeBit (reverseOf order)) ([], []) = ([], input) := by
  have hcnd := codes_nodup_of_prefix_free hkeys hpf
  have hrev := reverseOf_find horder hcnd
  have hpf' : ∀ p ∈ codes, ∀ q ∈ codes, p.2 <+: q.2 → p = q := by
    intro p hp q hq hpre
    by_contra hpq
    have hk : p.1 ≠ q.1 := fun h => hpq (entry_eq_of_key_eq hkeys hp hq h)
    exact hpf p hp q hq hk hpre
  have := decode_codeBits hrev hpf' hne input [] (fun b hb => codeOf_mem hkeys (hin b hb))
  simpa using this

/-- C13. For every code table (distinct keys, codes that are strings of the
characters 0 and 1) that is prefix-free with all codes non-empty, with the reverse
table built from its entries in any order, and for every sequence of byte values
that are keys of the table: the bit step of the decode loop, run over the exact
concatenation of their codes from the empty buffer, emits exactly that sequence and
ends with the empty buffer; when the concatenation fills whole bytes the decode loop
over those bytes does the same. -/
theorem greedy_decoding_inverts_concatenation (codes order : List (Nat × Str)) (input : Str)
    (horder : order.Perm codes)
    (hkeys : (codes.map Prod.fst).Nodup) (hbits : ∀ p ∈ codes, IsBits p.2)
    (hpf : ∀ p ∈ codes, ∀ q ∈ codes, p.1 ≠ q.1 → ¬ p.2 <+: q.2)
    (hne : ∀ p ∈ codes, p.2 ≠ [])
    (hin : ∀ b ∈ input, b ∈ codes.map Prod.fst) :
    (codeBits codes input).foldl (decodeBit (reverseOf order)) ([], []) = ([], input) ∧
      ((codeBits codes input).length % 8 = 0 →
        decodeLoop (reverseOf order) (bytesOfBits (codeBits codes input)) = ([], input)) := by
  have h1 := decode_concatenation input horder hkeys hpf hne hin
  refine ⟨h1, ?_⟩
  intro hmod
  have hpad : padBits (codeBits codes input) = codeBits codes input := by
    simp [padBits, padding, hmod]
  rw [decodeLoop_eq, bytesOfBits_bits (codeBits_isBits hbits input), hpad, h1]

/-- C13 at the table c = 0, a = 10, b = 11 and the sequence `aaaabbbcc`, whose codes
fill the two bytes 10101010 11111100. -/
theorem greedy_decoding_inverts_concatenation_witness :
    decodeLoop [([48], 99), ([49, 48], 97), ([49, 49], 98)] [170, 252] =
      ([], [97, 97, 97, 97, 98, 98, 98, 99, 99]) :=
  ((greedy_decoding_inverts_concatenation [(99, [48]), (97, [49, 48]), (98, [49, 49])]
    [(99, [48]), (97, [49, 48]), (98, [49, 49])]
    [97, 97, 97, 97, 98, 98, 98, 99, 99] (List.Perm.refl _) (by decide) (by decide)
    (by decide) (by decide) (by decide)).2 (by decide))

/-! ## C14 and C15: the shape of the tree -/

theorem Proper.isFull {t : HuffmanNode} (h : Proper t) : isFull t = true := by
  induction h with
  | leaf c f => simp [FileCompressor.isFull]
  | inner f l r hl hr ihl ihr =>
    simp [FileCompressor.isFull, hl.ne_null, hr.ne_null, ihl, ihr]

/-- C14. For every non-empty frequency map (entries with distinct keys, in any
iteration order) and every assignment of addresses, the nodes without children of the
tree returned by `buildHuffmanTree` are exactly the entries of the map, each byte
value with its frequency and each once: the number of leaves is the number of keys. -/
theorem leaves_are_map_entries (alloc : Nat → Nat) (charFreq : List (Nat × Nat))
    (hne : charFreq ≠ []) (hkeys : (charFreq.map Prod.fst).Nodup) :
    ∃ root, buildHuffmanTree alloc charFreq = .ok root ∧
      (leafList root).Perm charFreq ∧
      (∀ c f, (c, f) ∈ leafList root ↔ (c, f) ∈ charFreq) ∧
      ((leafList root).map Prod.fst).Nodup ∧
      (leafList root).length = charFreq.length := by
  obtain ⟨root, hroot, -, hperm⟩ := buildHuffmanTree_ok alloc hne
  exact ⟨root, hroot, hperm, fun c f => hperm.mem_iff, leafList_keys_nodup hperm hkeys,
    hperm.length_eq⟩

/-- C14 at the frequency map of `aaaabbbcc`, addresses in allocation order. -/
theorem leaves_are_map_entries_witness :
    ∃ root, buildHuffmanTree (fun k => k) [(97, 4), (98, 3), (99, 2)] = .ok root ∧
      (leafList root).Perm [(97, 4), (98, 3), (99, 2)] ∧
      (∀ c f, (c, f) ∈ leafList root ↔ (c, f) ∈ [(97, 4), (98, 3), (99, 2)]) ∧
      ((leafList root).map Prod.fst).Nodup ∧
      (leafList root).length = [(97, 4), (98, 3), (99, 2)].length :=
  leaves_are_map_entries (fun k => k) [(97, 4), (98, 3), (99, 2)] (by decide) (by decide)

/-- C15. For every non-empty frequency map and every assignment of addresses,
`buildHuffmanTree` returns a node (not the null pointer), and every node of the tree
has either no child or two children. -/
theorem tree_is_full_binary (alloc : Nat → Nat) (charFreq : List (Nat × Nat))
    (hne : charFreq ≠ []) :
    ∃ root, buildHuffmanTree alloc charFreq = .ok root ∧ root ≠ .null ∧
      isFull root = true := by
  obtain ⟨root, hroot, hproper, -⟩ := buildHuffmanTree_ok alloc hne
  exact ⟨root, hroot, hproper.ne_null, hproper.isFull⟩

/-- C15 at the frequency map of `aaaabbbcc`, addresses in allocation order. -/
theorem tree_is_full_binary_witness :
    ∃ root, buildHuffmanTree (fun k => k) [(97, 4), (98, 3), (99, 2)] = .ok root ∧
      root ≠ .null ∧ isFull root = true :=
  tree_is_full_binary (fun k => k) [(97, 4), (98, 3), (99, 2)] (by decide)

/-! ## C16: the frequencies -/

theorem heapTop_mem {h : List NodePtr} {p : NodePtr} (hp : heapTop h = some p) : p ∈ h :=
  (heapTop_pop_perm hp).symm.subset (List.mem_cons_self _ _)

theorem combineLoop_preserves (alloc : Nat → Nat) (P : HuffmanNode → Prop)
    (hP : ∀ l r, P l → P r → P (.node 0 ((l.frequency + r.frequency) % 2 ^ 32) l r)) :
    ∀ (fuel k : Nat) (heap : List NodePtr), (∀ p ∈ heap, P p.node) →
      ∀ p ∈ combineLoop alloc fuel k heap, P p.node := by
  intro fuel
  induction fuel with
  | zero => intro k heap h; exact h
  | succ fuel ih =>
    intro k heap h
    simp only [combineLoop]
    by_cases h1 : heap.length > 1
    · simp only [h1, if_true]
      cases hl : heapTop heap with
      | none => exact h
      | some left =>
        simp only
        cases hr : heapTop (heapPop heap) with
        | none => exact h
        | some right =>
          simp only
          have hperm1 := heapTop_pop_perm hl
          have hperm2 := heapTop_pop_perm hr
          have hleft : P left.node := h left (heapTop_mem hl)
          have hsub1 : ∀ p ∈ heapPop heap, p ∈ heap := fun p hp =>
            hperm1.symm.subset (List.mem_cons_of_mem _ hp)
          have hright : P right.node := h right (hsub1 right (heapTop_mem hr))
          apply ih
          intro p hp
          rcases List.mem_append.mp hp with hp | hp
          · exact h p (hsub1 p (hperm2.symm.subset (List.mem_cons_of_mem _ hp)))
          · simp only [List.mem_singleton] at hp
            subst hp
            exact hP _ _ hleft hright
    · simp only [h1, if_false]
      exact h

theorem buildHuffmanTree_preserves (alloc : Nat → Nat) (P : HuffmanNode → Prop)
    (hleaf : ∀ c f, P (.node c f .null .null))
    (hP : ∀ l r, P l → P r → P (.node 0 ((l.frequency + r.frequency) % 2 ^ 32) l r))
    {charFreq : List (Nat × Nat)} {root : HuffmanNode}
    (hroot : buildHuffmanTree alloc charFreq = .ok root) : P root := by
  have h0 : ∀ p ∈ pushLeaves alloc 0 charFreq [], P p.node := by
    intro p hp
    have hmem : p.node ∈ (pushLeaves alloc 0 charFreq []).map NodePtr.node :=
      List.mem_map_of_mem _ hp
    rw [pushLeaves_eq] at hmem
    simp only [List.map_nil, List.nil_append, List.mem_map] at hmem
    obtain ⟨q, _, hq⟩ := hmem
    rw [← hq]
    exact hleaf _ _
  have h1 := combineLoop_preserves alloc P hP (pushLeaves alloc 0 charFreq []).length
    charFreq.length _ h0
  simp only [buildHuffmanTree] at hroot
  cases htop : heapTop (combineLoop alloc (pushLeaves alloc 0 charFreq []).length
      charFreq.length (pushLeaves alloc 0 charFreq [])) with
  | none => simp [htop] at hroot
  | some p =>
    simp only [htop, Except.ok.injEq] at hroot
    rw [← hroot]
    exact h1 p (heapTop_mem htop)

/-- What the combine loop keeps for every tree of the queue: a proper tree whose
inner nodes carry the sum of their children, so that the frequency of the tree is
the sum of its leaves modulo `2 ^ 32`. -/
theorem frequency_invariant (alloc : Nat → Nat) {charFreq : List (Nat × Nat)}
    {root : HuffmanNode} (hroot : buildHuffmanTree alloc charFreq = .ok root) :
    Proper root ∧ sumsUp root = true ∧
      root.frequency % 2 ^ 32 = ((leafList root).map Prod.snd).sum % 2 ^ 32 ∧
      ((∃ c f, root = .node c f .null .null) ∨ root.frequency < 2 ^ 32) := by
  refine buildHuffmanTree_preserves alloc
    (fun t => Proper t ∧ sumsUp t = true ∧
      t.frequency % 2 ^ 32 = ((leafList t).map Prod.snd).sum % 2 ^ 32 ∧
      ((∃ c f, t = .node c f .null .null) ∨ t.frequency < 2 ^ 32)) ?_ ?_ hroot
  · intro c f
    exact ⟨Proper.leaf c f, by simp [sumsUp], by simp [leafList, HuffmanNode.frequency],
      Or.inl ⟨c, f, rfl⟩⟩
  · intro l r hl hr
    obtain ⟨hpl, hsl, hfl, -⟩ := hl
    obtain ⟨hpr, hsr, hfr, -⟩ := hr
    refine ⟨Proper.inner _ l r hpl hpr, ?_, ?_, Or.inr ?_⟩
    · simp [sumsUp, hsl, hsr]
    · have hnode : (HuffmanNode.node 0 ((l.frequency + r.frequency) % 2 ^ 32) l r).frequency =
          (l.frequency + r.frequency) % 2 ^ 32 := rfl
      rw [hnode, leafList_inner 0 _ hpl, List.map_append, List.sum_append, Nat.mod_mod,
        Nat.add_mod, hfl, hfr, ← Nat.add_mod]
    · have hnode : (HuffmanNode.node 0 ((l.frequency + r.frequency) % 2 ^ 32) l r).frequency =
          (l.frequency + r.frequency) % 2 ^ 32 := rfl
      rw [hnode]
      exact Nat.mod_lt _ (by norm_num)

/-- C16. For every non-empty frequency map whose counts fit the type `unsigned` and
every assignment of addresses, in the tree returned by `buildHuffmanTree` every node
with children carries the sum, modulo `2 ^ 32`, of the frequencies of its two
children; the frequency of the root is the sum of all counts of the map modulo
`2 ^ 32`, and it is the length of the input when the map counts the bytes of an input
shorter than `2 ^ 32`. -/
theorem frequencies_add_up (alloc : Nat → Nat) (charFreq : List (Nat × Nat))
    (hne : charFreq ≠ []) (hvals : ∀ p ∈ charFreq, p.2 < 2 ^ 32) :
    ∃ root, buildHuffmanTree alloc charFreq = .ok root ∧ sumsUp root = true ∧
      root.frequency = (charFreq.map Prod.snd).sum % 2 ^ 32 ∧
      ∀ input : Str, charFreq.Perm (countCharFrequencies input) → input.length < 2 ^ 32 →
        root.frequency = input.length := by
  obtain ⟨root, hroot, -, hperm⟩ := buildHuffmanTree_ok alloc hne
  obtain ⟨-, hsum, hfreq, hcase⟩ := frequency_invariant alloc hroot
  have hsumeq : ((leafList root).map Prod.snd).sum = (charFreq.map Prod.snd).sum :=
    (hperm.map Prod.snd).sum_eq
  have hlt : root.frequency < 2 ^ 32 := by
    rcases hcase with ⟨c, f, hcf⟩ | h
    · subst hcf
      have hmem : (c, f) ∈ charFreq := hperm.subset (by simp [leafList])
      exact hvals (c, f) hmem
    · exact h
  have hval : root.frequency = (charFreq.map Prod.snd).sum % 2 ^ 32 := by
    rw [← hsumeq, ← hfreq, Nat.mod_eq_of_lt hlt]
  refine ⟨root, hroot, hsum, hval, ?_⟩
  intro input hp hlen
  rw [hval, (hp.map Prod.snd).sum_eq, countCharFrequencies_sum input hlen,
    Nat.mod_eq_of_lt hlen]

/-- C16 at the frequency map of `aaaabbbcc`: the root carries 9. -/
theorem frequencies_add_up_witness :
    ∃ root, buildHuffmanTree (fun k => k) [(97, 4), (98, 3), (99, 2)] = .ok root ∧
      sumsUp root = true ∧ root.frequency = 9 :=
  (frequencies_add_up (fun k => k) [(97, 4), (98, 3), (99, 2)] (by decide)
    (by decide)).imp (fun _ h => ⟨h.1, h.2.1, h.2.2.1⟩)

/-! ## C18: the round trip up to padding -/

/-- C18. For every input with at least two distinct byte values and no NUL byte, in
every environment, the input is a prefix of the output of `decompress` on the
container that `compress` writes, the output has at most 7 bytes more than the
input, and the output is the input when the sum of the code lengths of the input
bytes is a multiple of 8. -/
theorem round_trip_up_to_padding (env : Env) (input : Str)
    (hbytes : ∀ b ∈ input, b < 256) (hnul : 0 ∉ input)
    (hdistinct : ∃ a ∈ input, ∃ b ∈ input, a ≠ b) :
    ∃ out, roundTrip env input = .ok out ∧ input <+: out ∧
      out.length ≤ input.length + 7 ∧
      ((input.map (fun c => (codeOf (tableOf env input) c).length)).sum % 8 = 0 →
        out = input) := by
  obtain ⟨extra, -, hrt, hlen⟩ := roundTrip_spec env input hbytes hnul hdistinct
  have hpad : padding (codeBits (tableOf env input) input) < 8 := by
    simp only [padding]; omega
  refine ⟨input ++ extra, hrt, List.prefix_append _ _, ?_, ?_⟩
  · simp only [List.length_append]; omega
  · intro hsum
    rw [← codeBits_length] at hsum
    have hzero : extra.length = 0 := by
      simp only [padding, hsum] at hlen
      omega
    rw [List.length_eq_zero.mp hzero, List.append_nil]

/-- C18 at the input `abb`, nodes allocated at increasing addresses: the output is
`abb` followed by five bytes decoded from the padding. -/
theorem round_trip_up_to_padding_witness :
    ∃ out, roundTrip plainEnv [97, 98, 98] = .ok out ∧ [97, 98, 98] <+: out ∧
      out.length ≤ [97, 98, 98].length + 7 ∧
      ((([97, 98, 98] : Str).map
        (fun c => (codeOf (tableOf plainEnv [97, 98, 98]) c).length)).sum % 8 = 0 →
        out = [97, 98, 98]) :=
  round_trip_up_to_padding plainEnv [97, 98, 98] (by decide) (by decide)
    ⟨97, by decide, 98, by decide, by decide⟩

/-! ## C7: the header of every container -/

/-- What `compress` builds for an input with at least two distinct byte values (NUL
included): a table of at most 256 distinct, non-empty codes. -/
theorem buildTables_many (env : Env) (input : Str) (hbytes : ∀ b ∈ input, b < 256)
    (hdistinct : ∃ a ∈ input, ∃ b ∈ input, a ≠ b) :
    ∃ t, buildTables env input = .ok t ∧ (t.huffmanCodes.map Prod.snd).Nodup ∧
      t.huffmanCodes.length ≤ 256 ∧ (∀ p ∈ t.huffmanCodes, p.2 ≠ [] ∧ IsBits p.2) := by
  obtain ⟨a, ha, b, hb, hab⟩ := hdistinct
  have hne : input ≠ [] := List.ne_nil_of_mem ha
  have hperm := env.freqOrder_perm (countCharFrequencies input)
  have hLkeys : ((env.freqOrder (countCharFrequencies input)).map Prod.fst).Nodup :=
    (hperm.map Prod.fst).nodup_iff.mpr (countCharFrequencies_nodup input)
  obtain ⟨root, hroot, hproper, hleaf⟩ :=
    buildHuffmanTree_ok env.alloc (freqOrder_ne_nil env hne)
  have hnd := leafList_keys_nodup hleaf hLkeys
  have hleafmem : ∀ c, c ∈ (leafList root).map Prod.fst ↔ c ∈ input := fun c =>
    (hleaf.map Prod.fst).mem_iff.trans
      ((hperm.map Prod.fst).mem_iff.trans (countCharFrequencies_keys input c))
  have hkeysnd := codeList_keys_nodup hproper hnd []
  have hkeyin : ∀ c ∈ (codeList root []).map Prod.fst, c ∈ input := by
    intro c hc
    rw [codeList_keys hproper [], List.mem_filter] at hc
    exact (hleafmem c).mp hc.1
  have h2 : 2 ≤ (leafList root).length := by
    have := two_le_length_of_distinct ((hleafmem a).mpr ha) ((hleafmem b).mpr hb) hab
    simpa using this
  refine ⟨buildHuffmanCodes root [] ⟨[], []⟩, by simp [buildTables, hroot], ?_⟩
  rw [buildHuffmanCodes_proper hproper hnd]
  refine ⟨codeList_codes_nodup hproper [], ?_, ?_⟩
  · have := nodup_length_le_bound hkeysnd (fun x hx => hbytes x (hkeyin x hx))
    simpa using this
  · intro p hp
    exact ⟨codeList_code_ne_nil hproper h2 p hp, codeList_isBits root [] isBits_nil p hp⟩

theorem singleton_of_equal_keys {l : List (Nat × Nat)} {c : Nat} (hne : l ≠ [])
    (hnd : (l.map Prod.fst).Nodup) (hkeys : ∀ p ∈ l, p.1 = c) : ∃ f, l = [(c, f)] := by
  match l, hne, hnd, hkeys with
  | [p], _, _, hkeys =>
    refine ⟨p.2, ?_⟩
    have := hkeys p (by simp)
    rw [← this]
  | p :: q :: rest, _, hnd, hkeys =>
    exfalso
    have hp := hkeys p (by simp)
    have hq := hkeys q (by simp)
    simp only [List.map_cons, List.nodup_cons, List.mem_cons, not_or] at hnd
    exact hnd.1.1 (hp.trans hq.symm)

/-- The frequency map of an input made of one byte value has one entry. -/
theorem freqOrder_single (env : Env) {input : Str} (hne : input ≠ [])
    (hsame : ∀ a ∈ input, ∀ b ∈ input, a = b) :
    ∃ c f, env.freqOrder (countCharFrequencies input) = [(c, f)] ∧ ∀ b ∈ input, b = c := by
  obtain ⟨c, hc⟩ := List.exists_mem_of_ne_nil input hne
  have hperm := env.freqOrder_perm (countCharFrequencies input)
  have hLkeys : ((env.freqOrder (countCharFrequencies input)).map Prod.fst).Nodup :=
    (hperm.map Prod.fst).nodup_iff.mpr (countCharFrequencies_nodup input)
  have hkeys : ∀ p ∈ env.freqOrder (countCharFrequencies input), p.1 = c := by
    intro p hp
    have h1 : p.1 ∈ (countCharFrequencies input).map Prod.fst :=
      List.mem_map_of_mem Prod.fst (hperm.mem_iff.mp hp)
    exact hsame _ ((countCharFrequencies_keys input p.1).mp h1) _ hc
  obtain ⟨f, hf⟩ := singleton_of_equal_keys (freqOrder_ne_nil env hne) hLkeys hkeys
  exact ⟨c, f, hf, fun b hb => hsame b hb c hc⟩

theorem packReference_of_empty_codes {codes : List (Nat × Str)}
    (hempty : ∀ p ∈ codes, p.2 = []) (input : Str) : packReference codes input = [] := by
  have hcode : ∀ b, codeOf codes b = [] := by
    intro b
    unfold codeOf
    cases h : mapFind codes b with
    | none => rfl
    | some code => exact hempty (b, code) (mapFind_mem h)
  have hbits : codeBits codes input = [] := by
    induction input with
    | nil => rfl
    | cons b bs ih =>
      simp only [codeBits, List.flatMap_cons, hcode, List.nil_append] at ih ⊢
      exact ih
  rw [packReference, hbits, bytesOfBits_nil]

/-- The container of an input made of one byte value: the table has the single entry
of that value with the empty code (no entry for NUL), no payload byte is written,
and the header loop returns the inverse table with nothing left to read. -/
theorem container_of_single_value (env : Env) {input : Str} (hne : input ≠ [])
    (hsame : ∀ a ∈ input, ∀ b ∈ input, a = b) :
    ∃ t s, buildTables env input = .ok t ∧
      compress env input = .ok (writeHeader (env.codeOrder t.huffmanCodes)) ∧
      packReference t.huffmanCodes input = [] ∧
      readHeader (writeHeader (env.codeOrder t.huffmanCodes)) =
        .ok (s, (env.codeOrder t.huffmanCodes).map (fun p => (p.2, p.1))) ∧
      (∀ code c, mapFind ((env.codeOrder t.huffmanCodes).map (fun p => (p.2, p.1))) code =
        some c ↔ (c, code) ∈ t.huffmanCodes) ∧
      s.data = [] ∧ payloadOf s = [] := by
  obtain ⟨c, f, hL, -⟩ := freqOrder_single env hne hsame
  have htree : buildHuffmanTree env.alloc [(c, f)] = .ok (.node c f .null .null) := by
    simp [buildHuffmanTree, pushLeaves, combineLoop, heapTop]
  by_cases hc : c = 0
  · have htab : buildTables env input = .ok ⟨[], []⟩ := by
      simp only [buildTables, hL, htree]
      simp [buildHuffmanCodes, hc]
    have horder : env.codeOrder [] = [] := (env.codeOrder_perm []).eq_nil
    have hpay : packReference ([] : List (Nat × Str)) input = [] :=
      packReference_of_empty_codes (by simp) input
    refine ⟨⟨[], []⟩, goodStream [], htab, ?_, hpay, ?_, ?_, rfl, rfl⟩
    · simp only [compress, htab, @writePayload_eq [] (by simp), hpay, horder,
        List.append_nil]
    · simp only [horder]
      rfl
    · simp [horder, mapFind]
  · have htab : buildTables env input = .ok ⟨[(c, [])], [([], c)]⟩ := by
      simp only [buildTables, hL, htree]
      simp [buildHuffmanCodes, hc, mapSet]
    have horder : env.codeOrder [(c, [])] = [(c, [])] :=
      List.perm_singleton.mp (env.codeOrder_perm _)
    have hpay : packReference [(c, ([] : Str))] input = [] :=
      packReference_of_empty_codes (by simp) input
    have hbits : ∀ p ∈ [(c, ([] : Str))], IsBits p.2 := by
      intro p hp
      simp only [List.mem_singleton] at hp
      rw [hp]
      exact isBits_nil
    refine ⟨⟨[(c, [])], [([], c)]⟩, { data := [], eof := true, fail := true }, htab, ?_,
      hpay, ?_, ?_, rfl, rfl⟩
    · simp only [compress, htab, writePayload_eq hbits, hpay, horder, List.append_nil]
    · simp only [horder]
      rfl
    · intro code c'
      simp only [horder, List.map_cons, List.map_nil, mapFind, List.mem_singleton,
        Prod.mk.injEq]
      by_cases h : [] = code
      · subst h
        simp [eq_comm]
      · have h' : ¬ code = [] := fun e => h e.symm
        simp [h, h']

/-- C7. For every non-empty input (whatever its byte values are: space, newline,
tab, digits, NUL, ...) and every environment, `compress` writes the header of its
code table followed by the payload, and the header loop of `decompress` applied to
these bytes returns exactly the inverse mapping code -> byte value of that table
and leaves the read position at the first payload byte: the unread bytes, and the
bytes the decode loop receives, are the payload. -/
theorem header_round_trip (env : Env) (input : Str) (hne : input ≠ [])
    (hbytes : ∀ b ∈ input, b < 256) :
    ∃ t s, buildTables env input = .ok t ∧
      compress env input = .ok (writeHeader (env.codeOrder t.huffmanCodes) ++
        packReference t.huffmanCodes input) ∧
      readHeader (writeHeader (env.codeOrder t.huffmanCodes) ++
          packReference t.huffmanCodes input) =
        .ok (s, (env.codeOrder t.huffmanCodes).map (fun p => (p.2, p.1))) ∧
      (∀ code c, mapFind ((env.codeOrder t.huffmanCodes).map (fun p => (p.2, p.1))) code =
        some c ↔ (c, code) ∈ t.huffmanCodes) ∧
      s.data = packReference t.huffmanCodes input ∧
      payloadOf s = packReference t.huffmanCodes input := by
  by_cases hd : ∃ a ∈ input, ∃ b ∈ input, a ≠ b
  · obtain ⟨t, htab, hcnd, hlen, hcodes⟩ := buildTables_many env input hbytes hd
    have hbits : ∀ p ∈ t.huffmanCodes, IsBits p.2 := fun p hp => (hcodes p hp).2
    have hoperm := env.codeOrder_perm t.huffmanCodes
    have hond : ((env.codeOrder t.huffmanCodes).map Prod.snd).Nodup :=
      (hoperm.map Prod.snd).nodup_iff.mpr hcnd
    have hread := @readHeader_writeHeader (env.codeOrder t.huffmanCodes)
      (packReference t.huffmanCodes input)
      (fun p hp => hcodes p (hoperm.mem_iff.mp hp))
      (by rw [hoperm.length_eq]; exact lt_of_le_of_lt hlen (by norm_num))
    have hfind := reverseOf_find hoperm hcnd
    rw [reverseOf_nodup hond] at hread hfind
    refine ⟨t, goodStream (packReference t.huffmanCodes input), htab, ?_, hread, hfind,
      rfl, rfl⟩
    simp only [compress, htab, writePayload_eq hbits]
  · have hsame : ∀ a ∈ input, ∀ b ∈ input, a = b := by
      intro a ha b hb
      by_contra hab
      exact hd ⟨a, ha, b, hb, hab⟩
    obtain ⟨t, s, htab, hcomp, hpay, hread, hfind, hdata, hpl⟩ :=
      container_of_single_value env hne hsame
    refine ⟨t, s, htab, ?_, ?_, hfind, ?_, ?_⟩
    · rw [hpay, List.append_nil]; exact hcomp
    · rw [hpay, List.append_nil]; exact hread
    · rw [hpay]; exact hdata
    · rw [hpay]; exact hpl

/-- C7 at an input whose byte values are the space, the newline, the digits 0 and 1,
the tab and the carriage return, nodes allocated at increasing addresses. -/
theorem header_round_trip_witness :
    ∃ t s, buildTables plainEnv [32, 10, 48, 49, 9, 13, 32, 10, 48, 49, 9] = .ok t ∧
      compress plainEnv [32, 10, 48, 49, 9, 13, 32, 10, 48, 49, 9] =
        .ok (writeHeader (plainEnv.codeOrder t.huffmanCodes) ++
          packReference t.huffmanCodes [32, 10, 48, 49, 9, 13, 32, 10, 48, 49, 9]) ∧
      readHeader (writeHeader (plainEnv.codeOrder t.huffmanCodes) ++
          packReference t.huffmanCodes [32, 10, 48, 49, 9, 13, 32, 10, 48, 49, 9]) =
        .ok (s, (plainEnv.codeOrder t.huffmanCodes).map (fun p => (p.2, p.1))) ∧
      (∀ code c,
        mapFind ((plainEnv.codeOrder t.huffmanCodes).map (fun p => (p.2, p.1))) code =
          some c ↔ (c, code) ∈ t.huffmanCodes) ∧
      s.data = packReference t.huffmanCodes [32, 10, 48, 49, 9, 13, 32, 10, 48, 49, 9] ∧
      payloadOf s = packReference t.huffmanCodes [32, 10, 48, 49, 9, 13, 32, 10, 48, 49, 9] :=
  header_round_trip plainEnv [32, 10, 48, 49, 9, 13, 32, 10, 48, 49, 9] (by decide)
    (by decide)

end FileCompressor
